import Mathlib

/-!
# Global alignment (`globalAlignment.cpp`)

A shallow embedding of the Needleman-Wunsch style program in `globalAlignment.cpp`
and theorems about it.

Modelling conventions.

* The C++ globals `seq1`, `seq2`, `gap`, `match`, `misMatch` are passed explicitly.
  Sequences are `List Char`; the weights are a record `Weights`, whose value in the
  program is `programWeights` (`gap = -2`, `match = 1`, `misMatch = -1`).
* `int` scores are `Int`. Every score a run of `main` computes is bounded in absolute value
  by `2 * (rows + cols)`, so 32-bit overflow would need sequences of about `10^9` symbols, and
  the run is modelled with `findMax`, whose sums are exact. `findMax32` is the same function
  with the wrap-around additions of a 32-bit `int`, for statements about arbitrary cell and
  weight values; `findMax32_eq_findMax` and `findMax32_filled` relate the two.
* The two heap matrices `scoringMatrix` and `ptr` are total functions `Nat → Nat → _`,
  updated pointwise. A pointer `&ptr[i][j]` is the coordinate pair `(i, j)` and the null
  pointer is `none`.
* `new Node[cols]` leaves the node fields indeterminate. `backTrack` tests `prev` and `next`
  against null without ever initialising them for the origin cell (`prev`) or for the final
  cell (`next`), so the model starts from zeroed memory: `Node.blank`.
* `std::string::operator[]` is `charAt`, an `Option`-valued read: `none` stands for a read
  at or past the end of the string, which has no character of the sequence to deliver. The
  `ch1`/`ch2` fields of a node therefore hold `Option Char`.
* `cout` output of `backTrack` is the list of `ch1` values and the list of `ch2` values it
  prints, without the separating blanks.
-/

namespace GlobalAlignment

/-- The three scalar weights held in the globals `gap`, `match` and `misMatch`. -/
structure Weights where
  gap : Int
  match_ : Int
  misMatch : Int

/-- The values the globals are initialised with: `gap=-2`, `match=1`, `misMatch=-1`. -/
def programWeights : Weights := ⟨-2, 1, -1⟩

/-- The record `struct Node`. `next` and `prev` are coordinates of nodes of `ptr`. -/
structure Node where
  x : Nat
  y : Nat
  next : Option (Nat × Nat)
  prev : Option (Nat × Nat)
  ch1 : Option Char
  ch2 : Option Char
  which : Int

/-- A node of freshly allocated (zeroed) memory. -/
def Node.blank : Node := ⟨0, 0, none, none, none, none, 0⟩

/-- The read `s[i]` of a `std::string`. -/
def charAt (s : List Char) (i : Nat) : Option Char := s[i]?

/-- The two global matrices `scoringMatrix` and `ptr`. -/
structure State where
  scoringMatrix : Nat → Nat → Int
  ptr : Nat → Nat → Node

/-- The assignment `m[i][j] = v`. -/
def setCell {α : Type} (m : Nat → Nat → α) (i j : Nat) (v : α) : Nat → Nat → α :=
  fun a b => if a = i ∧ b = j then v else m a b

/-- The global `rows = seq2.length()+1`. -/
def rowsOf (seq2 : List Char) : Nat := seq2.length + 1

/-- The global `cols = seq1.length()+1`. -/
def colsOf (seq1 : List Char) : Nat := seq1.length + 1

/-- The function `findMax(x, y, &max)`: returns the pair `(which, max)` of the returned
direction code and the value stored through the pointer `max`. -/
def findMax (w : Weights) (seq1 seq2 : List Char) (scoringMatrix : Nat → Nat → Int)
    (x y : Nat) : Int × Int :=
  let up := scoringMatrix x (y - 1)
  let diagonal := scoringMatrix (x - 1) (y - 1)
  let left := scoringMatrix (x - 1) y
  let r0 : Int × Int := (1, up + w.gap)
  let r1 : Int × Int := if left + w.gap ≥ r0.2 then (3, left + w.gap) else r0
  let a := charAt seq1 (y - 1)
  let b := charAt seq2 (x - 1)
  if a = b ∧ diagonal + w.match_ ≥ r1.2 then (2, diagonal + w.match_)
  else if diagonal + w.misMatch ≥ r1.2 then (2, diagonal + w.misMatch)
  else r1

/-- The values of a 32-bit `int`: from `-2^31` to `2^31 - 1`. -/
def InInt32 (v : Int) : Prop := -2147483648 ≤ v ∧ v ≤ 2147483647

/-- The value a 32-bit `int` addition delivers for the exact sum `v`: two's complement
wrap-around into `-2^31 .. 2^31 - 1`. -/
def wrap32 (v : Int) : Int := (v + 2147483648) % 4294967296 - 2147483648

/-- The function `findMax(x, y, &max)` with every sum computed as a 32-bit `int` addition:
the same tests in the same order as `findMax`, each `+` followed by `wrap32`. -/
def findMax32 (w : Weights) (seq1 seq2 : List Char) (scoringMatrix : Nat → Nat → Int)
    (x y : Nat) : Int × Int :=
  let up := scoringMatrix x (y - 1)
  let diagonal := scoringMatrix (x - 1) (y - 1)
  let left := scoringMatrix (x - 1) y
  let r0 : Int × Int := (1, wrap32 (up + w.gap))
  let r1 : Int × Int := if wrap32 (left + w.gap) ≥ r0.2 then (3, wrap32 (left + w.gap)) else r0
  let a := charAt seq1 (y - 1)
  let b := charAt seq2 (x - 1)
  if a = b ∧ wrap32 (diagonal + w.match_) ≥ r1.2 then (2, wrap32 (diagonal + w.match_))
  else if wrap32 (diagonal + w.misMatch) ≥ r1.2 then (2, wrap32 (diagonal + w.misMatch))
  else r1

/-- The node written into `ptr[i][j]` by the body of the loops of `fillMatrix`, from the
node `n` found there and the direction code `which`. The three `if`s are sequential, as in
the source; the locals `t1`, `t2` are dead. -/
def fillNode (seq1 seq2 : List Char) (i j : Nat) (which : Int) (n : Node) : Node :=
  let n1 := if which = 1 then
    { n with prev := some (i, j - 1), ch1 := charAt seq1 (j - 1), ch2 := some '-' } else n
  let n2 := if which = 2 then
    { n1 with prev := some (i - 1, j - 1), ch1 := charAt seq1 (j - 1),
              ch2 := charAt seq2 (i - 1) } else n1
  let n3 := if which = 3 then
    { n2 with prev := some (i - 1, j), ch1 := some '-', ch2 := charAt seq2 j } else n2
  { n3 with x := i, y := j, which := which }

/-- The body of the two nested loops of `fillMatrix` at `(i, j)`. -/
def fillCell (w : Weights) (seq1 seq2 : List Char) (i j : Nat) (s : State) : State :=
  let r := findMax w seq1 seq2 s.scoringMatrix i j
  { scoringMatrix := setCell s.scoringMatrix i j r.2
    ptr := setCell s.ptr i j (fillNode seq1 seq2 i j r.1 (s.ptr i j)) }

/-- The loops `for(i=1;i<rows;i++) for(j=1;j<cols;j++)` of `fillMatrix`. -/
def fillLoops (w : Weights) (seq1 seq2 : List Char) (s : State) : State :=
  (List.range' 1 (rowsOf seq2 - 1)).foldl
    (fun s i => (List.range' 1 (colsOf seq1 - 1)).foldl
      (fun s j => fillCell w seq1 seq2 i j s) s) s

/-- The state of `main` before the border loops: `scoringMatrix` zeroed and
`ptr[0][0].ch1='T'`, `ptr[0][0].ch2='C'`. -/
def initState : State :=
  { scoringMatrix := fun _ _ => 0
    ptr := setCell (fun _ _ => Node.blank) 0 0
      { Node.blank with ch1 := some 'T', ch2 := some 'C' } }

/-- The body of the first border loop of `main`, filling `ptr[i][j]` and
`scoringMatrix[i][j]` on row `i = 0`. -/
def rowStep (seq1 : List Char) (i j : Nat) (s : State) : State :=
  { scoringMatrix := setCell s.scoringMatrix i j
      (s.scoringMatrix i j + (s.scoringMatrix i (j - 1) - 2))
    ptr := setCell s.ptr i j
      { s.ptr i j with prev := some (i, j - 1), x := i, y := j, which := 1,
                       ch2 := some '-', ch1 := charAt seq1 (j - 1) } }

/-- The body of the second border loop of `main`, filling `ptr[j][i]` and
`scoringMatrix[j][i]` on column `i = 0`. -/
def colStep (seq2 : List Char) (i j : Nat) (s : State) : State :=
  { scoringMatrix := setCell s.scoringMatrix j i
      (s.scoringMatrix j i + (s.scoringMatrix (j - 1) i - 2))
    ptr := setCell s.ptr j i
      { s.ptr j i with prev := some (j - 1, i), x := j, y := i, which := 3,
                       ch2 := charAt seq2 (j - 1), ch1 := some '-' } }

/-- The first border loop nest: `for(i=0;i<1;i++) for(j=1;j<cols;j++)`. -/
def borderRow (seq1 : List Char) (s : State) : State :=
  (List.range 1).foldl
    (fun s i => (List.range' 1 (colsOf seq1 - 1)).foldl (fun s j => rowStep seq1 i j s) s) s

/-- The second border loop nest: `for(i=0;i<1;i++) for(j=1;j<rows;j++)`. -/
def borderCol (seq2 : List Char) (s : State) : State :=
  (List.range 1).foldl
    (fun s i => (List.range' 1 (rowsOf seq2 - 1)).foldl (fun s j => colStep seq2 i j s) s) s

/-- The state of `main` at the call of `fillMatrix`. -/
def borders (seq1 seq2 : List Char) : State :=
  borderCol seq2 (borderRow seq1 initState)

/-- The state when `fillMatrix` calls `backTrack`. -/
def filled (w : Weights) (seq1 seq2 : List Char) : State :=
  fillLoops w seq1 seq2 (borders seq1 seq2)

/-- The assignment `ptr[p].next = &ptr[c]`. -/
def setNext (ptr : Nat → Nat → Node) (p c : Nat × Nat) : Nat → Nat → Node :=
  setCell ptr p.1 p.2 { ptr p.1 p.2 with next := some c }

/-- The first loop of `backTrack`, `while(curr->prev!=0)`: returns the matrix of nodes with
the `next` links set and the final value of the local `prev`. `none` when the fuel runs
out. -/
def linkLoop : Nat → (Nat → Nat → Node) → Nat × Nat → Option (Nat × Nat) →
    Option ((Nat → Nat → Node) × Option (Nat × Nat))
  | fuel, ptr, curr, prev =>
    match (ptr curr.1 curr.2).prev with
    | none => some (ptr, prev)
    | some p =>
      match fuel with
      | 0 => none
      | fuel + 1 => linkLoop fuel (setNext ptr p curr) p (some curr)

/-- The second and third loops of `backTrack`, `while(prev!=0)`, printing the field `field`
of each node met along the `next` links. `none` when the fuel runs out. -/
def printLoop {α : Type} (field : Node → α) :
    Nat → (Nat → Nat → Node) → Option (Nat × Nat) → Option (List α)
  | _, _, none => some []
  | 0, _, some _ => none
  | fuel + 1, ptr, some c =>
    (printLoop field fuel ptr (ptr c.1 c.2).next).map (field (ptr c.1 c.2) :: ·)

/-- The function `backTrack(curr)`: the nodes after its relinking and the two printed
lines. -/
def backTrack (fuel : Nat) (ptr : Nat → Nat → Node) (curr : Nat × Nat) :
    Option ((Nat → Nat → Node) × List (Option Char) × List (Option Char)) :=
  match linkLoop fuel ptr curr none with
  | none => none
  | some (ptr1, temp) =>
    match printLoop Node.ch1 fuel ptr1 temp, printLoop Node.ch2 fuel ptr1 temp with
    | some l1, some l2 => some (ptr1, l1, l2)
    | _, _ => none

/-- What one run prints and leaves behind: the two aligned lines of `backTrack` and the
final matrices. -/
structure Output where
  alignedSeq1 : List (Option Char)
  alignedSeq2 : List (Option Char)
  state : State

/-- The function `fillMatrix()`: the loops, then `backTrack(&ptr[rows-1][cols-1])`. -/
def fillMatrix (w : Weights) (seq1 seq2 : List Char) (s : State) : Option Output :=
  let s1 := fillLoops w seq1 seq2 s
  match backTrack (rowsOf seq2 + colsOf seq1) s1.ptr (rowsOf seq2 - 1, colsOf seq1 - 1) with
  | none => none
  | some (ptr1, l1, l2) =>
    some { alignedSeq1 := l1, alignedSeq2 := l2,
           state := { scoringMatrix := s1.scoringMatrix, ptr := ptr1 } }

/-- The function `main()` up to the display of the matrix. -/
def main (w : Weights) (seq1 seq2 : List Char) : Option Output :=
  fillMatrix w seq1 seq2 (borders seq1 seq2)

/-- The score read at `scoringMatrix[rows-1][cols-1]`. -/
def finalScore (seq1 seq2 : List Char) (s : State) : Int :=
  s.scoringMatrix (rowsOf seq2 - 1) (colsOf seq1 - 1)

/-- The matrix as `main` displays it, row by row. -/
def display (seq1 seq2 : List Char) (s : State) : List (List Int) :=
  (List.range (rowsOf seq2)).map fun i =>
    (List.range (colsOf seq1)).map fun j => s.scoringMatrix i j

/-! ## Proof-side descriptions of the border cells -/

/-- The node the first border loop leaves at `ptr[0][j]`. -/
def rowNode (seq1 : List Char) (j : Nat) : Node :=
  { Node.blank with prev := some (0, j - 1), x := 0, y := j, which := 1,
                    ch2 := some '-', ch1 := charAt seq1 (j - 1) }

/-- The node the second border loop leaves at `ptr[i][0]`. -/
def colNode (seq2 : List Char) (i : Nat) : Node :=
  { Node.blank with prev := some (i - 1, 0), x := i, y := 0, which := 3,
                    ch2 := charAt seq2 (i - 1), ch1 := some '-' }

/-- The node at `ptr[0][0]`: only `ch1` and `ch2` are ever written. -/
def originNode : Node := { Node.blank with ch1 := some 'T', ch2 := some 'C' }

/-! ## Proof-side descriptions of the pointer loops of `backTrack` -/

/-- The coordinates met by the printing loops of `backTrack` along the `next` links. -/
def walkNext : Nat → (Nat → Nat → Node) → Option (Nat × Nat) → Option (List (Nat × Nat))
  | _, _, none => some []
  | 0, _, some _ => none
  | fuel + 1, ptr, some c => (walkNext fuel ptr (ptr c.1 c.2).next).map (c :: ·)

/-- The list `rest` is the sequence of nodes reached from `c` along the `prev` links, up to
a node whose `prev` is null. -/
def IsChain (ptr : Nat → Nat → Node) : Nat × Nat → List (Nat × Nat) → Prop
  | c, [] => (ptr c.1 c.2).prev = none
  | c, q :: r => (ptr c.1 c.2).prev = some q ∧ IsChain ptr q r

/-- Two node matrices that differ at most in the `next` fields. -/
def SameButNext (p1 p2 : Nat → Nat → Node) : Prop :=
  ∀ a b, (p2 a b).prev = (p1 a b).prev ∧ (p2 a b).ch1 = (p1 a b).ch1 ∧
    (p2 a b).ch2 = (p1 a b).ch2 ∧ (p2 a b).which = (p1 a b).which ∧
    (p2 a b).x = (p1 a b).x ∧ (p2 a b).y = (p1 a b).y

/-- The nodes reached from `c` along the `prev` links, `c` itself excluded. -/
def prevChain (ptr : Nat → Nat → Node) : Nat → Nat × Nat → List (Nat × Nat)
  | 0, _ => []
  | fuel + 1, c =>
    match (ptr c.1 c.2).prev with
    | none => []
    | some q => q :: prevChain ptr fuel q

/-- The nodes `backTrack` prints when started at `c`, in printing order: the chain of
`prev` links from `c`, read backwards and without the node that ends it. -/
def pathOf (ptr : Nat → Nat → Node) (fuel : Nat) (c : Nat × Nat) : List (Nat × Nat) :=
  (c :: prevChain ptr fuel c).dropLast.reverse

/-- The `prev` links lead towards the origin: every node of the rectangle other than the
origin has a predecessor in the rectangle with a smaller coordinate sum, and the origin
has none. -/
def Descending (ptr : Nat → Nat → Node) (r c : Nat) : Prop :=
  (ptr 0 0).prev = none ∧
  ∀ a b, a ≤ r → b ≤ c → (a, b) ≠ (0, 0) →
    ∃ q : Nat × Nat, (ptr a b).prev = some q ∧ q.1 ≤ a ∧ q.2 ≤ b ∧ q.1 + q.2 < a + b

/-- The cells `backTrack` prints in a run of `main`, in printing order. -/
def alignPath (w : Weights) (seq1 seq2 : List Char) : List (Nat × Nat) :=
  pathOf (filled w seq1 seq2).ptr (rowsOf seq2 + colsOf seq1) (rowsOf seq2 - 1, colsOf seq1 - 1)

/-! ## The three candidate scores of a cell -/

/-- The candidate `up = matrix[i][j-1] + gap`. -/
def upCandidate (w : Weights) (m : Nat → Nat → Int) (i j : Nat) : Int :=
  m i (j - 1) + w.gap

/-- The candidate `left = matrix[i-1][j] + gap`. -/
def leftCandidate (w : Weights) (m : Nat → Nat → Int) (i j : Nat) : Int :=
  m (i - 1) j + w.gap

/-- The candidate `diag = matrix[i-1][j-1] + (match if seq1[j-1] == seq2[i-1] else
mismatch)`. -/
def diagCandidate (w : Weights) (seq1 seq2 : List Char) (m : Nat → Nat → Int)
    (i j : Nat) : Int :=
  m (i - 1) (j - 1) + (if charAt seq1 (j - 1) = charAt seq2 (i - 1) then w.match_
    else w.misMatch)

/-! ## Directions and scores of printed columns -/

/-- The direction code `findMax` returns at a cell of the filled matrix. -/
def dirAt (w : Weights) (seq1 seq2 : List Char) (a b : Nat) : Int :=
  (findMax w seq1 seq2 (filled w seq1 seq2).scoringMatrix a b).1

/-- The score of one printed column: `gap` if either symbol is `'-'`, `match` if the two
symbols are equal, `misMatch` otherwise. -/
def emittedScore (w : Weights) (c1 c2 : Option Char) : Int :=
  if c1 = some '-' ∨ c2 = some '-' then w.gap
  else if c1 = c2 then w.match_ else w.misMatch

/-- The sum of the column scores of two printed lines read column by column. -/
def emittedTotal (w : Weights) (l1 l2 : List (Option Char)) : Int :=
  ((l1.zip l2).map (fun c => emittedScore w c.1 c.2)).sum

/-! ## Global alignments and their scores -/

/-- The score of one column of an alignment, a gap being `none`: `match` for equal symbols,
`misMatch` for different symbols, `gap` for a column containing a gap. -/
def columnScore (w : Weights) : Option Char × Option Char → Int
  | (some a, some b) => if a = b then w.match_ else w.misMatch
  | _ => w.gap

/-- The sum of the column scores of an alignment. -/
def alignmentScore (w : Weights) (al : List (Option Char × Option Char)) : Int :=
  (al.map (columnScore w)).sum

/-- A global alignment of `seq1` with `seq2`: both sequences padded with gaps to a common
length, with no column of two gaps. -/
def IsAlignment (al : List (Option Char × Option Char)) (seq1 seq2 : List Char) : Prop :=
  al.filterMap Prod.fst = seq1 ∧ al.filterMap Prod.snd = seq2 ∧ (none, none) ∉ al

/-! ## Basic facts on cell updates -/

theorem setCell_same {α : Type} (m : Nat → Nat → α) (i j : Nat) (v : α) :
    setCell m i j v i j = v := by
  simp [setCell]

theorem setCell_other {α : Type} (m : Nat → Nat → α) (i j a b : Nat) (v : α)
    (h : ¬(a = i ∧ b = j)) : setCell m i j v a b = m a b := by
  simp [setCell, h]

theorem findMax_congr (w : Weights) (seq1 seq2 : List Char) (m m2 : Nat → Nat → Int)
    (x y : Nat) (h1 : m x (y - 1) = m2 x (y - 1)) (h2 : m (x - 1) (y - 1) = m2 (x - 1) (y - 1))
    (h3 : m (x - 1) y = m2 (x - 1) y) :
    findMax w seq1 seq2 m x y = findMax w seq1 seq2 m2 x y := by
  simp only [findMax, h1, h2, h3]

/-! ## The border loops -/

theorem rowStep_scoringMatrix (seq1 : List Char) (i j : Nat) (s : State) (a b : Nat) :
    (rowStep seq1 i j s).scoringMatrix a b =
      if a = i ∧ b = j then s.scoringMatrix i j + (s.scoringMatrix i (j - 1) - 2)
      else s.scoringMatrix a b := rfl

theorem rowStep_ptr (seq1 : List Char) (i j : Nat) (s : State) (a b : Nat) :
    (rowStep seq1 i j s).ptr a b =
      if a = i ∧ b = j then
        { s.ptr i j with prev := some (i, j - 1), x := i, y := j, which := 1,
                         ch2 := some '-', ch1 := charAt seq1 (j - 1) }
      else s.ptr a b := rfl

theorem colStep_scoringMatrix (seq2 : List Char) (i j : Nat) (s : State) (a b : Nat) :
    (colStep seq2 i j s).scoringMatrix a b =
      if a = j ∧ b = i then s.scoringMatrix j i + (s.scoringMatrix (j - 1) i - 2)
      else s.scoringMatrix a b := rfl

theorem colStep_ptr (seq2 : List Char) (i j : Nat) (s : State) (a b : Nat) :
    (colStep seq2 i j s).ptr a b =
      if a = j ∧ b = i then
        { s.ptr j i with prev := some (j - 1, i), x := j, y := i, which := 3,
                         ch2 := charAt seq2 (j - 1), ch1 := some '-' }
      else s.ptr a b := rfl

theorem initState_ptr (a b : Nat) :
    initState.ptr a b = if a = 0 ∧ b = 0 then originNode else Node.blank := rfl

theorem rowLoop_spec (seq1 : List Char) (n : Nat) :
    ∀ a b : Nat,
      ((List.range' 1 n).foldl (fun s j => rowStep seq1 0 j s) initState).scoringMatrix a b
          = (if a = 0 ∧ 1 ≤ b ∧ b ≤ n then -2 * (b : Int) else 0) ∧
      ((List.range' 1 n).foldl (fun s j => rowStep seq1 0 j s) initState).ptr a b
          = (if a = 0 ∧ 1 ≤ b ∧ b ≤ n then rowNode seq1 b else initState.ptr a b) := by
  induction n with
  | zero =>
    intro a b
    have h : ¬(a = 0 ∧ 1 ≤ b ∧ b ≤ 0) := by omega
    rw [if_neg h, if_neg h]
    exact ⟨rfl, rfl⟩
  | succ n ih =>
    intro a b
    rw [List.range'_1_concat, List.foldl_append]
    simp only [List.foldl_cons, List.foldl_nil]
    generalize (List.range' 1 n).foldl (fun s j => rowStep seq1 0 j s) initState = R at ih ⊢
    have ihM := fun a b => (ih a b).1
    have ihP := fun a b => (ih a b).2
    rw [rowStep_scoringMatrix, rowStep_ptr]
    simp only [ihM, ihP, initState_ptr]
    constructor
    · split_ifs <;> simp only [true_and] at * <;> omega
    · by_cases hab : a = 0 ∧ b = 1 + n
      · obtain ⟨ha, hb⟩ := hab
        subst ha hb
        have h1 : (0 : Nat) = 0 ∧ 1 ≤ 1 + n ∧ 1 + n ≤ n + 1 := by omega
        have h2 : ¬((0 : Nat) = 0 ∧ 1 ≤ 1 + n ∧ 1 + n ≤ n) := by omega
        have h3 : ¬((0 : Nat) = 0 ∧ (1 + n) = 0) := by omega
        rw [if_neg h2, if_neg h3, if_pos h1]
        simp [rowNode, Node.blank]
      · have h1 : (a = 0 ∧ 1 ≤ b ∧ b ≤ n + 1) ↔ (a = 0 ∧ 1 ≤ b ∧ b ≤ n) := by omega
        simp only [hab, h1, if_false]

theorem borderRow_spec (seq1 : List Char) (a b : Nat) :
    (borderRow seq1 initState).scoringMatrix a b
        = (if a = 0 ∧ 1 ≤ b ∧ b ≤ seq1.length then -2 * (b : Int) else 0) ∧
    (borderRow seq1 initState).ptr a b
        = (if a = 0 ∧ 1 ≤ b ∧ b ≤ seq1.length then rowNode seq1 b else initState.ptr a b) := by
  have h := rowLoop_spec seq1 seq1.length a b
  simpa [borderRow, colsOf, List.range_succ] using h

theorem colLoop_spec (seq1 seq2 : List Char) (n : Nat) :
    ∀ a b : Nat,
      ((List.range' 1 n).foldl (fun s j => colStep seq2 0 j s)
          (borderRow seq1 initState)).scoringMatrix a b
        = (if b = 0 ∧ 1 ≤ a ∧ a ≤ n then -2 * (a : Int)
           else (borderRow seq1 initState).scoringMatrix a b) ∧
      ((List.range' 1 n).foldl (fun s j => colStep seq2 0 j s)
          (borderRow seq1 initState)).ptr a b
        = (if b = 0 ∧ 1 ≤ a ∧ a ≤ n then colNode seq2 a
           else (borderRow seq1 initState).ptr a b) := by
  induction n with
  | zero =>
    intro a b
    have h : ¬(b = 0 ∧ 1 ≤ a ∧ a ≤ 0) := by omega
    rw [if_neg h, if_neg h]
    exact ⟨rfl, rfl⟩
  | succ n ih =>
    intro a b
    rw [List.range'_1_concat, List.foldl_append]
    simp only [List.foldl_cons, List.foldl_nil]
    generalize (List.range' 1 n).foldl (fun s j => colStep seq2 0 j s)
      (borderRow seq1 initState) = R at ih ⊢
    have ihM := fun a b => (ih a b).1
    have ihP := fun a b => (ih a b).2
    have hM := fun a b => (borderRow_spec seq1 a b).1
    have hP := fun a b => (borderRow_spec seq1 a b).2
    rw [colStep_scoringMatrix, colStep_ptr]
    simp only [ihM, ihP, hM, hP, initState_ptr]
    constructor
    · split_ifs <;> simp only [true_and] at * <;> omega
    · by_cases hab : a = 1 + n ∧ b = 0
      · obtain ⟨ha, hb⟩ := hab
        subst ha hb
        have h1 : (0 : Nat) = 0 ∧ 1 ≤ 1 + n ∧ 1 + n ≤ n + 1 := by omega
        have h2 : ¬((0 : Nat) = 0 ∧ 1 ≤ 1 + n ∧ 1 + n ≤ n) := by omega
        have h3 : ¬((1 + n) = 0 ∧ (0 : Nat) = 0) := by omega
        have h4 : ¬((1 + n) = 0 ∧ 1 ≤ 0 ∧ 0 ≤ seq1.length) := by omega
        have h5 : (1 + n = 1 + n ∧ (0 : Nat) = 0) := by omega
        rw [if_neg h2, if_neg h3, if_pos h1, if_neg h4, if_pos h5]
        simp [colNode, Node.blank]
      · have h1 : (b = 0 ∧ 1 ≤ a ∧ a ≤ n + 1) ↔ (b = 0 ∧ 1 ≤ a ∧ a ≤ n) := by omega
        simp only [hab, h1, if_false]

/-- The matrices at the call of `fillMatrix`, cell by cell. -/
theorem borders_spec (seq1 seq2 : List Char) (a b : Nat) :
    (borders seq1 seq2).scoringMatrix a b
        = (if b = 0 ∧ 1 ≤ a ∧ a ≤ seq2.length then -2 * (a : Int)
           else if a = 0 ∧ 1 ≤ b ∧ b ≤ seq1.length then -2 * (b : Int) else 0) ∧
    (borders seq1 seq2).ptr a b
        = (if b = 0 ∧ 1 ≤ a ∧ a ≤ seq2.length then colNode seq2 a
           else if a = 0 ∧ 1 ≤ b ∧ b ≤ seq1.length then rowNode seq1 b
           else if a = 0 ∧ b = 0 then originNode else Node.blank) := by
  have h := colLoop_spec seq1 seq2 seq2.length a b
  have hM := (borderRow_spec seq1 a b).1
  have hP := (borderRow_spec seq1 a b).2
  rw [hM, hP, initState_ptr] at h
  simpa [borders, borderCol, rowsOf, List.range_succ] using h

/-! ## The loops of `fillMatrix` -/

theorem fillCell_scoringMatrix (w : Weights) (seq1 seq2 : List Char) (i j : Nat) (s : State)
    (a b : Nat) :
    (fillCell w seq1 seq2 i j s).scoringMatrix a b =
      if a = i ∧ b = j then (findMax w seq1 seq2 s.scoringMatrix i j).2
      else s.scoringMatrix a b := rfl

theorem fillCell_ptr (w : Weights) (seq1 seq2 : List Char) (i j : Nat) (s : State)
    (a b : Nat) :
    (fillCell w seq1 seq2 i j s).ptr a b =
      if a = i ∧ b = j then
        fillNode seq1 seq2 i j (findMax w seq1 seq2 s.scoringMatrix i j).1 (s.ptr i j)
      else s.ptr a b := rfl

/-- One row of `fillMatrix`: cells outside the row segment are untouched, and each cell of
the segment holds what `findMax` computes from the final matrix. -/
theorem innerLoop_spec (w : Weights) (seq1 seq2 : List Char) (i : Nat) (hi : 1 ≤ i)
    (s : State) (n : Nat) :
    (∀ a b, ¬(a = i ∧ 1 ≤ b ∧ b ≤ n) →
      ((List.range' 1 n).foldl (fun s j => fillCell w seq1 seq2 i j s) s).scoringMatrix a b
        = s.scoringMatrix a b ∧
      ((List.range' 1 n).foldl (fun s j => fillCell w seq1 seq2 i j s) s).ptr a b
        = s.ptr a b) ∧
    (∀ b, 1 ≤ b → b ≤ n →
      ((List.range' 1 n).foldl (fun s j => fillCell w seq1 seq2 i j s) s).scoringMatrix i b
        = (findMax w seq1 seq2
            ((List.range' 1 n).foldl
              (fun s j => fillCell w seq1 seq2 i j s) s).scoringMatrix i b).2 ∧
      ((List.range' 1 n).foldl (fun s j => fillCell w seq1 seq2 i j s) s).ptr i b
        = fillNode seq1 seq2 i b (findMax w seq1 seq2
            ((List.range' 1 n).foldl
              (fun s j => fillCell w seq1 seq2 i j s) s).scoringMatrix i b).1 (s.ptr i b)) := by
  induction n with
  | zero =>
    refine ⟨fun a b _ => ⟨rfl, rfl⟩, fun b h1 h2 => ?_⟩
    omega
  | succ n ih =>
    rw [List.range'_1_concat, List.foldl_append]
    simp only [List.foldl_cons, List.foldl_nil]
    generalize (List.range' 1 n).foldl (fun s j => fillCell w seq1 seq2 i j s) s = R at ih ⊢
    obtain ⟨ihF, ihC⟩ := ih
    have hfm : ∀ b, 1 ≤ b → b ≤ n + 1 →
        findMax w seq1 seq2 (fillCell w seq1 seq2 i (1 + n) R).scoringMatrix i b
          = findMax w seq1 seq2 R.scoringMatrix i b := by
      intro b hb1 hb2
      apply findMax_congr
      · rw [fillCell_scoringMatrix, if_neg (by omega)]
      · rw [fillCell_scoringMatrix, if_neg (by omega)]
      · rw [fillCell_scoringMatrix, if_neg (by omega)]
    constructor
    · intro a b hab
      have h1 : ¬(a = i ∧ b = 1 + n) := by omega
      have h2 : ¬(a = i ∧ 1 ≤ b ∧ b ≤ n) := by omega
      rw [fillCell_scoringMatrix, fillCell_ptr, if_neg h1, if_neg h1]
      exact ihF a b h2
    · intro b hb1 hb2
      rw [hfm b hb1 hb2, fillCell_scoringMatrix, fillCell_ptr]
      by_cases hb : b = 1 + n
      · subst hb
        have h3 : ¬(i = i ∧ 1 ≤ 1 + n ∧ 1 + n ≤ n) := by omega
        rw [if_pos ⟨rfl, rfl⟩, if_pos ⟨rfl, rfl⟩, (ihF i (1 + n) h3).2]
        exact ⟨rfl, rfl⟩
      · have h1 : ¬(i = i ∧ b = 1 + n) := by omega
        rw [if_neg h1, if_neg h1]
        exact ihC b hb1 (by omega)

/-- The two nested loops of `fillMatrix`, run over rows `1..m` and columns `1..n`. -/
theorem outerLoop_spec (w : Weights) (seq1 seq2 : List Char) (s : State) (n m : Nat) :
    (∀ a b, ¬(1 ≤ a ∧ a ≤ m ∧ 1 ≤ b ∧ b ≤ n) →
      ((List.range' 1 m).foldl (fun s i => (List.range' 1 n).foldl
          (fun s j => fillCell w seq1 seq2 i j s) s) s).scoringMatrix a b
        = s.scoringMatrix a b ∧
      ((List.range' 1 m).foldl (fun s i => (List.range' 1 n).foldl
          (fun s j => fillCell w seq1 seq2 i j s) s) s).ptr a b
        = s.ptr a b) ∧
    (∀ a b, 1 ≤ a → a ≤ m → 1 ≤ b → b ≤ n →
      ((List.range' 1 m).foldl (fun s i => (List.range' 1 n).foldl
          (fun s j => fillCell w seq1 seq2 i j s) s) s).scoringMatrix a b
        = (findMax w seq1 seq2
            ((List.range' 1 m).foldl (fun s i => (List.range' 1 n).foldl
              (fun s j => fillCell w seq1 seq2 i j s) s) s).scoringMatrix a b).2 ∧
      ((List.range' 1 m).foldl (fun s i => (List.range' 1 n).foldl
          (fun s j => fillCell w seq1 seq2 i j s) s) s).ptr a b
        = fillNode seq1 seq2 a b (findMax w seq1 seq2
            ((List.range' 1 m).foldl (fun s i => (List.range' 1 n).foldl
              (fun s j => fillCell w seq1 seq2 i j s) s) s).scoringMatrix a b).1
            (s.ptr a b)) := by
  induction m with
  | zero =>
    refine ⟨fun a b _ => ⟨rfl, rfl⟩, fun a b h1 h2 => ?_⟩
    omega
  | succ m ih =>
    rw [List.range'_1_concat, List.foldl_append]
    simp only [List.foldl_cons, List.foldl_nil]
    generalize (List.range' 1 m).foldl (fun s i => (List.range' 1 n).foldl
      (fun s j => fillCell w seq1 seq2 i j s) s) s = R at ih ⊢
    obtain ⟨ihF, ihC⟩ := ih
    obtain ⟨inF, inC⟩ := innerLoop_spec w seq1 seq2 (1 + m) (by omega) R n
    generalize (List.range' 1 n).foldl (fun s j => fillCell w seq1 seq2 (1 + m) j s) R = R2
      at inF inC ⊢
    constructor
    · intro a b hab
      have h1 : ¬(a = 1 + m ∧ 1 ≤ b ∧ b ≤ n) := by omega
      have h2 : ¬(1 ≤ a ∧ a ≤ m ∧ 1 ≤ b ∧ b ≤ n) := by omega
      rw [(inF a b h1).1, (inF a b h1).2]
      exact ihF a b h2
    · intro a b ha1 ha2 hb1 hb2
      by_cases ha : a = 1 + m
      · subst ha
        have h2 : ¬(1 ≤ 1 + m ∧ 1 + m ≤ m ∧ 1 ≤ b ∧ b ≤ n) := by omega
        rw [← (ihF (1 + m) b h2).2]
        exact inC b hb1 hb2
      · have hfm : findMax w seq1 seq2 R2.scoringMatrix a b
            = findMax w seq1 seq2 R.scoringMatrix a b := by
          apply findMax_congr
          · exact (inF a (b - 1) (by omega)).1
          · exact (inF (a - 1) (b - 1) (by omega)).1
          · exact (inF (a - 1) b (by omega)).1
        have h1 : ¬(a = 1 + m ∧ 1 ≤ b ∧ b ≤ n) := by omega
        rw [hfm, (inF a b h1).1, (inF a b h1).2]
        exact ihC a b ha1 (by omega) hb1 hb2

/-- Every interior cell of the filled matrices holds what `findMax` computes there from
the filled score matrix. -/
theorem filled_interior (w : Weights) (seq1 seq2 : List Char) (i j : Nat)
    (hi1 : 1 ≤ i) (hi2 : i < rowsOf seq2) (hj1 : 1 ≤ j) (hj2 : j < colsOf seq1) :
    (filled w seq1 seq2).scoringMatrix i j
      = (findMax w seq1 seq2 (filled w seq1 seq2).scoringMatrix i j).2 ∧
    (filled w seq1 seq2).ptr i j
      = fillNode seq1 seq2 i j
          (findMax w seq1 seq2 (filled w seq1 seq2).scoringMatrix i j).1 Node.blank := by
  have h := (outerLoop_spec w seq1 seq2 (borders seq1 seq2) (colsOf seq1 - 1)
    (rowsOf seq2 - 1)).2 i j hi1 (by omega) hj1 (by omega)
  have hb := (borders_spec seq1 seq2 i j).2
  rw [if_neg (by omega), if_neg (by omega), if_neg (by omega)] at hb
  rw [hb] at h
  exact h

/-- The loops of `fillMatrix` leave row 0 and column 0 as the border loops set them. -/
theorem filled_border (w : Weights) (seq1 seq2 : List Char) (i j : Nat)
    (h : i = 0 ∨ j = 0) :
    (filled w seq1 seq2).scoringMatrix i j = (borders seq1 seq2).scoringMatrix i j ∧
    (filled w seq1 seq2).ptr i j = (borders seq1 seq2).ptr i j :=
  (outerLoop_spec w seq1 seq2 (borders seq1 seq2) (colsOf seq1 - 1)
    (rowsOf seq2 - 1)).1 i j (by omega)

/-! ## The pointer loops of `backTrack` -/

theorem printLoop_eq_walkNext {α : Type} (field : Node → α) (fuel : Nat)
    (ptr : Nat → Nat → Node) (start : Option (Nat × Nat)) :
    printLoop field fuel ptr start
      = (walkNext fuel ptr start).map (List.map fun c => field (ptr c.1 c.2)) := by
  induction fuel generalizing start with
  | zero => cases start <;> simp [printLoop, walkNext]
  | succ f ih =>
    cases start with
    | none => simp [printLoop, walkNext]
    | some c =>
      simp only [printLoop, walkNext, ih]
      cases walkNext f ptr (ptr c.1 c.2).next <;> simp

theorem setNext_other (ptr : Nat → Nat → Node) (p c : Nat × Nat) (a : Nat × Nat)
    (h : a ≠ p) : setNext ptr p c a.1 a.2 = ptr a.1 a.2 := by
  apply setCell_other
  rintro ⟨h1, h2⟩
  exact h (Prod.ext h1 h2)

theorem setNext_sameButNext (ptr : Nat → Nat → Node) (p c : Nat × Nat) :
    SameButNext ptr (setNext ptr p c) := by
  intro a b
  by_cases h : a = p.1 ∧ b = p.2
  · obtain ⟨rfl, rfl⟩ := h
    simp [setNext, setCell]
  · simp [setNext, setCell, h]

theorem SameButNext.trans {p1 p2 p3 : Nat → Nat → Node} (h1 : SameButNext p1 p2)
    (h2 : SameButNext p2 p3) : SameButNext p1 p3 := by
  intro a b
  obtain ⟨a1, a2, a3, a4, a5, a6⟩ := h1 a b
  obtain ⟨b1, b2, b3, b4, b5, b6⟩ := h2 a b
  exact ⟨b1.trans a1, b2.trans a2, b3.trans a3, b4.trans a4, b5.trans a5, b6.trans a6⟩

theorem IsChain_of_sameButNext {p1 p2 : Nat → Nat → Node} (h : SameButNext p1 p2)
    (rest : List (Nat × Nat)) : ∀ c, IsChain p1 c rest → IsChain p2 c rest := by
  induction rest with
  | nil => intro c hc; exact ((h c.1 c.2).1).trans hc
  | cons q r ih =>
    intro c hc
    exact ⟨((h c.1 c.2).1).trans hc.1, ih q hc.2⟩

theorem walkNext_setNext (fuel : Nat) (ptr : Nat → Nat → Node) (q x : Nat × Nat) :
    ∀ (start : Option (Nat × Nat)) (V : List (Nat × Nat)),
      walkNext fuel ptr start = some V → q ∉ V →
      walkNext fuel (setNext ptr q x) start = some V := by
  induction fuel with
  | zero =>
    intro start V h _
    cases start with
    | none => simpa [walkNext] using h
    | some c => simp [walkNext] at h
  | succ f ih =>
    intro start V h hq
    cases start with
    | none => simpa [walkNext] using h
    | some c =>
      simp only [walkNext, Option.map_eq_some'] at h
      obtain ⟨V2, hV2, rfl⟩ := h
      have hc : c ≠ q := fun e => hq (by simp [e])
      have hq2 : q ∉ V2 := fun e => hq (List.mem_cons_of_mem _ e)
      simp only [walkNext, setNext_other ptr q x c hc, ih _ V2 hV2 hq2, Option.map_some']

theorem walkNext_mono (fuel k : Nat) (ptr : Nat → Nat → Node) :
    ∀ (start : Option (Nat × Nat)) (V : List (Nat × Nat)),
      walkNext fuel ptr start = some V → walkNext (fuel + k) ptr start = some V := by
  induction fuel with
  | zero =>
    intro start V h
    cases start with
    | none =>
      cases k <;> simpa [walkNext] using h
    | some c => simp [walkNext] at h
  | succ f ih =>
    intro start V h
    cases start with
    | none => simpa [walkNext] using h
    | some c =>
      simp only [walkNext, Option.map_eq_some'] at h
      obtain ⟨V2, hV2, rfl⟩ := h
      have : f + 1 + k = (f + k) + 1 := by omega
      rw [this]
      simp only [walkNext, ih _ V2 hV2, Option.map_some']

/-- The first loop of `backTrack` on a chain of `prev` links without repetition: it ends,
changes `next` fields only, and leaves in `prev` the head of a `next`-linked list that
lists the chain, its last node excepted, in reverse. -/
theorem linkLoop_spec (rest : List (Nat × Nat)) :
    ∀ (ptr : Nat → Nat → Node) (curr : Nat × Nat) (prev : Option (Nat × Nat))
      (V : List (Nat × Nat)) (fuel : Nat),
      IsChain ptr curr rest → (curr :: rest).Nodup → (∀ c ∈ curr :: rest, c ∉ V) →
      walkNext V.length ptr prev = some V → (ptr curr.1 curr.2).next = prev →
      rest.length ≤ fuel →
      ∃ ptr2 prev2, linkLoop fuel ptr curr prev = some (ptr2, prev2) ∧
        SameButNext ptr ptr2 ∧
        walkNext ((curr :: rest).dropLast.reverse ++ V).length ptr2 prev2
          = some ((curr :: rest).dropLast.reverse ++ V) := by
  induction rest with
  | nil =>
    intro ptr curr prev V fuel hch _ _ hwalk _ _
    refine ⟨ptr, prev, ?_, fun a b => ⟨rfl, rfl, rfl, rfl, rfl, rfl⟩, ?_⟩
    · unfold linkLoop
      rw [show (ptr curr.1 curr.2).prev = none from hch]
    · simpa using hwalk
  | cons q r ih =>
    intro ptr curr prev V fuel hch hnd hV hwalk hnext hfuel
    obtain ⟨hprev, hch2⟩ := hch
    obtain ⟨f, rfl⟩ : ∃ f, fuel = f + 1 := ⟨fuel - 1, by simp at hfuel; omega⟩
    have hcq : curr ≠ q := by
      intro e
      have := (List.nodup_cons.1 hnd).1
      exact this (by simp [e])
    have hqV : q ∉ V := hV q (by simp)
    have hcV : curr ∉ V := hV curr (by simp)
    have hstep : walkNext (curr :: V).length (setNext ptr q curr) (some curr)
        = some (curr :: V) := by
      simp only [List.length_cons, walkNext, setNext_other ptr q curr curr hcq, hnext,
        walkNext_setNext _ _ q curr prev V hwalk hqV, Option.map_some']
    have hnext2 : (setNext ptr q curr q.1 q.2).next = some curr := by
      simp [setNext, setCell]
    obtain ⟨ptr2, prev2, h1, h2, h3⟩ := ih (setNext ptr q curr) q (some curr) (curr :: V) f
      (IsChain_of_sameButNext (setNext_sameButNext ptr q curr) r q hch2)
      (List.nodup_cons.1 hnd).2
      (by
        intro c hc hcm
        rcases List.mem_cons.1 hcm with e | e
        · subst e
          exact (List.nodup_cons.1 hnd).1 hc
        · exact hV c (List.mem_cons_of_mem _ hc) e)
      hstep hnext2 (by simp at hfuel; omega)
    refine ⟨ptr2, prev2, ?_, (setNext_sameButNext ptr q curr).trans h2, ?_⟩
    · unfold linkLoop
      rw [hprev]
      exact h1
    · have e : (curr :: q :: r).dropLast.reverse ++ V
          = (q :: r).dropLast.reverse ++ (curr :: V) := by
        simp [List.dropLast]
      rw [e]
      exact h3

theorem pathOf_origin (ptr : Nat → Nat → Node) (fuel : Nat) (c : Nat × Nat)
    (h : (ptr c.1 c.2).prev = none) : pathOf ptr fuel c = [] := by
  cases fuel <;> simp [pathOf, prevChain, h]

theorem pathOf_step (ptr : Nat → Nat → Node) (fuel : Nat) (c q : Nat × Nat)
    (h : (ptr c.1 c.2).prev = some q) :
    pathOf ptr (fuel + 1) c = pathOf ptr fuel q ++ [c] := by
  simp [pathOf, prevChain, h, List.dropLast]

theorem prevChain_spec (ptr : Nat → Nat → Node) (r c : Nat) (h : Descending ptr r c) :
    ∀ (fuel : Nat) (p : Nat × Nat), p.1 ≤ r → p.2 ≤ c → p.1 + p.2 ≤ fuel →
      IsChain ptr p (prevChain ptr fuel p) ∧
      (∀ q ∈ prevChain ptr fuel p, q.1 + q.2 < p.1 + p.2) ∧
      (prevChain ptr fuel p).Nodup ∧ (prevChain ptr fuel p).length ≤ p.1 + p.2 := by
  intro fuel
  induction fuel with
  | zero =>
    intro p _ _ h3
    have hp : p = (0, 0) := Prod.ext (by simp; omega) (by simp; omega)
    subst hp
    exact ⟨h.1, by simp [prevChain], by simp [prevChain], by simp [prevChain]⟩
  | succ f ih =>
    intro p h1 h2 h3
    by_cases hp : p = (0, 0)
    · subst hp
      have : prevChain ptr (f + 1) (0, 0) = [] := by simp [prevChain, h.1]
      rw [this]
      exact ⟨h.1, by simp, by simp, by simp⟩
    · obtain ⟨q, hq, hq1, hq2, hq3⟩ := h.2 p.1 p.2 h1 h2 hp
      have e : prevChain ptr (f + 1) p = q :: prevChain ptr f q := by
        simp [prevChain, hq]
      obtain ⟨i1, i2, i3, i4⟩ := ih q (by omega) (by omega) (by omega)
      rw [e]
      refine ⟨⟨hq, i1⟩, ?_, ?_, ?_⟩
      · intro x hx
        rcases List.mem_cons.1 hx with e2 | e2
        · subst e2; exact hq3
        · have := i2 x e2
          omega
      · refine List.nodup_cons.2 ⟨fun hm => ?_, i3⟩
        have := i2 q hm
        omega
      · simp only [List.length_cons]
        omega

/-- On `prev` links that lead towards the origin, `backTrack` ends and prints the `ch1` and
`ch2` fields of the nodes of `pathOf`, changing `next` fields only. -/
theorem backTrack_spec (ptr : Nat → Nat → Node) (r c : Nat) (h : Descending ptr r c)
    (hnext : (ptr r c).next = none) (fuel : Nat) (hfuel : r + c ≤ fuel) :
    ∃ ptr2, SameButNext ptr ptr2 ∧
      backTrack fuel ptr (r, c) = some (ptr2,
        (pathOf ptr fuel (r, c)).map (fun p => (ptr p.1 p.2).ch1),
        (pathOf ptr fuel (r, c)).map (fun p => (ptr p.1 p.2).ch2)) := by
  obtain ⟨i1, i2, i3, i4⟩ := prevChain_spec ptr r c h fuel (r, c) (le_refl _) (le_refl _) hfuel
  have hnd : ((r, c) :: prevChain ptr fuel (r, c)).Nodup := by
    refine List.nodup_cons.2 ⟨fun hm => ?_, i3⟩
    have := i2 _ hm
    omega
  obtain ⟨ptr2, prev2, h1, h2, h3⟩ := linkLoop_spec (prevChain ptr fuel (r, c)) ptr (r, c)
    none [] fuel i1 hnd (by simp) (by simp [walkNext]) hnext (by simp at i4; omega)
  rw [List.append_nil] at h3
  have hlen : (((r, c) :: prevChain ptr fuel (r, c)).dropLast.reverse).length ≤ fuel := by
    simp at i4 ⊢
    omega
  obtain ⟨k, hk⟩ := Nat.exists_eq_add_of_le hlen
  have h4 := walkNext_mono _ k ptr2 prev2 _ h3
  rw [← hk] at h4
  refine ⟨ptr2, h2, ?_⟩
  have e1 : ∀ p : Nat × Nat, (ptr2 p.1 p.2).ch1 = (ptr p.1 p.2).ch1 :=
    fun p => (h2 p.1 p.2).2.1
  have e2 : ∀ p : Nat × Nat, (ptr2 p.1 p.2).ch2 = (ptr p.1 p.2).ch2 :=
    fun p => (h2 p.1 p.2).2.2.1
  simp only [backTrack, h1, printLoop_eq_walkNext, h4, Option.map_some', pathOf, e1, e2]

/-! ## The nodes of the filled matrix and the run of `main` -/

theorem findMax_which (w : Weights) (seq1 seq2 : List Char) (m : Nat → Nat → Int)
    (x y : Nat) :
    (findMax w seq1 seq2 m x y).1 = 1 ∨ (findMax w seq1 seq2 m x y).1 = 2 ∨
      (findMax w seq1 seq2 m x y).1 = 3 := by
  unfold findMax
  simp only
  split_ifs <;> simp

/-- Every node of the filled matrix inside the `rows × cols` rectangle. -/
theorem filled_node (w : Weights) (seq1 seq2 : List Char) (a b : Nat)
    (ha : a < rowsOf seq2) (hb : b < colsOf seq1) :
    (filled w seq1 seq2).ptr a b =
      if b = 0 ∧ 1 ≤ a then colNode seq2 a
      else if a = 0 ∧ 1 ≤ b then rowNode seq1 b
      else if a = 0 ∧ b = 0 then originNode
      else fillNode seq1 seq2 a b
        (findMax w seq1 seq2 (filled w seq1 seq2).scoringMatrix a b).1 Node.blank := by
  simp only [rowsOf, colsOf] at ha hb
  by_cases h0 : a = 0 ∨ b = 0
  · rw [(filled_border w seq1 seq2 a b h0).2, (borders_spec seq1 seq2 a b).2]
    have e1 : (b = 0 ∧ 1 ≤ a ∧ a ≤ seq2.length) ↔ (b = 0 ∧ 1 ≤ a) := by omega
    have e2 : (a = 0 ∧ 1 ≤ b ∧ b ≤ seq1.length) ↔ (a = 0 ∧ 1 ≤ b) := by omega
    simp only [e1, e2]
    split_ifs <;> first | rfl | omega
  · rw [if_neg (by omega), if_neg (by omega), if_neg (by omega)]
    exact (filled_interior w seq1 seq2 a b (by omega) (by simp only [rowsOf]; omega)
      (by omega) (by simp only [colsOf]; omega)).2

theorem filled_next (w : Weights) (seq1 seq2 : List Char) (a b : Nat)
    (ha : a < rowsOf seq2) (hb : b < colsOf seq1) :
    ((filled w seq1 seq2).ptr a b).next = none := by
  rw [filled_node w seq1 seq2 a b ha hb]
  split_ifs
  · rfl
  · rfl
  · rfl
  · simp only [fillNode]
    split_ifs <;> rfl

theorem filled_descending (w : Weights) (seq1 seq2 : List Char) :
    Descending (filled w seq1 seq2).ptr (rowsOf seq2 - 1) (colsOf seq1 - 1) := by
  constructor
  · rw [filled_node w seq1 seq2 0 0 (by simp [rowsOf]) (by simp [colsOf])]
    simp [originNode, Node.blank]
  · intro a b ha hb hab
    have hab2 : ¬(a = 0 ∧ b = 0) := fun h => hab (by rw [h.1, h.2])
    simp only [rowsOf, colsOf] at ha hb
    rw [filled_node w seq1 seq2 a b (by simp only [rowsOf]; omega)
      (by simp only [colsOf]; omega)]
    by_cases h1 : b = 0 ∧ 1 ≤ a
    · rw [if_pos h1]
      exact ⟨(a - 1, 0), rfl, by simp, by simp, by simp; omega⟩
    · rw [if_neg h1]
      by_cases h2 : a = 0 ∧ 1 ≤ b
      · rw [if_pos h2]
        exact ⟨(0, b - 1), rfl, by simp, by simp, by simp; omega⟩
      · rw [if_neg h2, if_neg hab2]
        rcases findMax_which w seq1 seq2 (filled w seq1 seq2).scoringMatrix a b with e | e | e
        · refine ⟨(a, b - 1), by simp [fillNode, e], by simp, by simp, by simp; omega⟩
        · refine ⟨(a - 1, b - 1), by simp [fillNode, e], by simp, by simp, by simp; omega⟩
        · refine ⟨(a - 1, b), by simp [fillNode, e], by simp, by simp, by simp; omega⟩

/-- The run of `main` ends, for all sequences: it leaves the score matrix of the fill
loops and prints the `ch1` and the `ch2` fields of the cells of `alignPath`. -/
theorem main_spec (w : Weights) (seq1 seq2 : List Char) :
    ∃ ptr2, SameButNext (filled w seq1 seq2).ptr ptr2 ∧
      main w seq1 seq2 = some
        { alignedSeq1 := (alignPath w seq1 seq2).map
            (fun p => ((filled w seq1 seq2).ptr p.1 p.2).ch1)
          alignedSeq2 := (alignPath w seq1 seq2).map
            (fun p => ((filled w seq1 seq2).ptr p.1 p.2).ch2)
          state := { scoringMatrix := (filled w seq1 seq2).scoringMatrix, ptr := ptr2 } } := by
  obtain ⟨ptr2, h1, h2⟩ := backTrack_spec (filled w seq1 seq2).ptr (rowsOf seq2 - 1)
    (colsOf seq1 - 1) (filled_descending w seq1 seq2)
    (filled_next w seq1 seq2 _ _ (by simp [rowsOf]) (by simp [colsOf]))
    (rowsOf seq2 + colsOf seq1) (by omega)
  refine ⟨ptr2, h1, ?_⟩
  simp only [main, fillMatrix]
  rw [show fillLoops w seq1 seq2 (borders seq1 seq2) = filled w seq1 seq2 from rfl, h2]
  rfl

/-- The run of `main` in the form used below: it ends, its score matrix is that of the
fill loops, its nodes are those of the fill loops up to `next`, and the two printed lines
are read off the cells of `alignPath`. -/
theorem main_run (w : Weights) (seq1 seq2 : List Char) :
    ∃ o, main w seq1 seq2 = some o ∧
      o.state.scoringMatrix = (filled w seq1 seq2).scoringMatrix ∧
      SameButNext (filled w seq1 seq2).ptr o.state.ptr ∧
      o.alignedSeq1 = (alignPath w seq1 seq2).map
        (fun p => ((filled w seq1 seq2).ptr p.1 p.2).ch1) ∧
      o.alignedSeq2 = (alignPath w seq1 seq2).map
        (fun p => ((filled w seq1 seq2).ptr p.1 p.2).ch2) := by
  obtain ⟨ptr2, h1, h2⟩ := main_spec w seq1 seq2
  exact ⟨_, h2, rfl, h1, rfl, rfl⟩

theorem findMax_max (w : Weights) (hw : w.misMatch ≤ w.match_) (seq1 seq2 : List Char)
    (m : Nat → Nat → Int) (x y : Nat) :
    (findMax w seq1 seq2 m x y).2
      = max (upCandidate w m x y) (max (leftCandidate w m x y)
          (diagCandidate w seq1 seq2 m x y)) := by
  unfold findMax upCandidate leftCandidate diagCandidate
  by_cases hc : charAt seq1 (y - 1) = charAt seq2 (x - 1) <;>
    simp only [hc, true_and, false_and, if_true, if_false, max_def, ge_iff_le] <;>
    split_ifs <;> omega

theorem findMax_dir (w : Weights) (hw : w.misMatch ≤ w.match_) (seq1 seq2 : List Char)
    (m : Nat → Nat → Int) (x y : Nat) :
    (findMax w seq1 seq2 m x y).1
      = if upCandidate w m x y ≤ diagCandidate w seq1 seq2 m x y ∧
            leftCandidate w m x y ≤ diagCandidate w seq1 seq2 m x y then 2
        else if upCandidate w m x y ≤ leftCandidate w m x y then 3 else 1 := by
  unfold findMax upCandidate leftCandidate diagCandidate
  by_cases hc : charAt seq1 (y - 1) = charAt seq2 (x - 1) <;>
    simp only [hc, true_and, false_and, if_true, if_false, ge_iff_le] <;>
    split_ifs <;> first | rfl | omega

theorem programWeights_le : programWeights.misMatch ≤ programWeights.match_ := by decide

theorem borders_score (seq1 seq2 : List Char) (a b : Nat) (ha : a < rowsOf seq2)
    (hb : b < colsOf seq1) (h : a = 0 ∨ b = 0) :
    (borders seq1 seq2).scoringMatrix a b = -2 * ((a : Int) + (b : Int)) := by
  simp only [rowsOf, colsOf] at ha hb
  rw [(borders_spec seq1 seq2 a b).1]
  split_ifs <;> omega

theorem filled_score_border (w : Weights) (seq1 seq2 : List Char) (a b : Nat)
    (ha : a < rowsOf seq2) (hb : b < colsOf seq1) (h : a = 0 ∨ b = 0) :
    (filled w seq1 seq2).scoringMatrix a b = -2 * ((a : Int) + (b : Int)) := by
  rw [(filled_border w seq1 seq2 a b h).1]
  exact borders_score seq1 seq2 a b ha hb h

/-- The score recurrence on the filled matrix, for weights with `misMatch ≤ match`. -/
theorem filled_recurrence (w : Weights) (hw : w.misMatch ≤ w.match_) (seq1 seq2 : List Char)
    (i j : Nat) (hi1 : 1 ≤ i) (hi2 : i < rowsOf seq2) (hj1 : 1 ≤ j) (hj2 : j < colsOf seq1) :
    (filled w seq1 seq2).scoringMatrix i j
      = max (upCandidate w (filled w seq1 seq2).scoringMatrix i j)
          (max (leftCandidate w (filled w seq1 seq2).scoringMatrix i j)
            (diagCandidate w seq1 seq2 (filled w seq1 seq2).scoringMatrix i j)) := by
  rw [← findMax_max w hw]
  exact (filled_interior w seq1 seq2 i j hi1 hi2 hj1 hj2).1

/-- With the program's weights no cell of the rectangle scores above its row index or
above its column index. -/
theorem filled_le_index (seq1 seq2 : List Char) :
    ∀ (n i j : Nat), i + j ≤ n → i < rowsOf seq2 → j < colsOf seq1 →
      (filled programWeights seq1 seq2).scoringMatrix i j ≤ (i : Int) ∧
      (filled programWeights seq1 seq2).scoringMatrix i j ≤ (j : Int) := by
  intro n
  induction n with
  | zero =>
    intro i j h hi hj
    rw [filled_score_border _ seq1 seq2 i j hi hj (by omega)]
    omega
  | succ n ih =>
    intro i j h hi hj
    by_cases h0 : i = 0 ∨ j = 0
    · rw [filled_score_border _ seq1 seq2 i j hi hj h0]
      omega
    · have hu := ih i (j - 1) (by omega) hi (by omega)
      have hl := ih (i - 1) j (by omega) (by omega) hj
      have hd := ih (i - 1) (j - 1) (by omega) (by omega) (by omega)
      rw [filled_recurrence programWeights programWeights_le seq1 seq2 i j (by omega) hi
        (by omega) hj]
      simp only [upCandidate, leftCandidate, diagCandidate]
      have hg : programWeights.gap = -2 := rfl
      have hm : programWeights.match_ = 1 := rfl
      have hmm : programWeights.misMatch = -1 := rfl
      rw [hg, hm, hmm]
      split_ifs <;> omega

/-! ## Induction along the path of `backTrack` -/

theorem filled_node_row (w : Weights) (seq1 seq2 : List Char) (b : Nat) (hb1 : 1 ≤ b)
    (hb : b < colsOf seq1) : (filled w seq1 seq2).ptr 0 b = rowNode seq1 b := by
  rw [filled_node w seq1 seq2 0 b (by simp [rowsOf]) hb, if_neg (by omega),
    if_pos ⟨rfl, hb1⟩]

theorem filled_node_col (w : Weights) (seq1 seq2 : List Char) (a : Nat) (ha1 : 1 ≤ a)
    (ha : a < rowsOf seq2) : (filled w seq1 seq2).ptr a 0 = colNode seq2 a := by
  rw [filled_node w seq1 seq2 a 0 ha (by simp [colsOf]), if_pos ⟨rfl, ha1⟩]

theorem filled_node_origin (w : Weights) (seq1 seq2 : List Char) :
    (filled w seq1 seq2).ptr 0 0 = originNode := by
  rw [filled_node w seq1 seq2 0 0 (by simp [rowsOf]) (by simp [colsOf]), if_neg (by omega),
    if_neg (by omega), if_pos ⟨rfl, rfl⟩]

theorem filled_node_interior (w : Weights) (seq1 seq2 : List Char) (a b : Nat)
    (ha1 : 1 ≤ a) (ha : a < rowsOf seq2) (hb1 : 1 ≤ b) (hb : b < colsOf seq1) :
    (filled w seq1 seq2).ptr a b
      = fillNode seq1 seq2 a b (dirAt w seq1 seq2 a b) Node.blank :=
  (filled_interior w seq1 seq2 a b ha1 ha hb1 hb).2

/-- Induction along the cells printed by `backTrack`: a property of (cell, printed cells up
to it) that holds at the origin and is carried along each kind of link holds at every
cell of the rectangle. -/
theorem path_induction (w : Weights) (seq1 seq2 : List Char)
    (Q : Nat → Nat → List (Nat × Nat) → Prop)
    (horigin : Q 0 0 [])
    (hrow : ∀ b l, 1 ≤ b → b < colsOf seq1 → Q 0 (b - 1) l → Q 0 b (l ++ [(0, b)]))
    (hcol : ∀ a l, 1 ≤ a → a < rowsOf seq2 → Q (a - 1) 0 l → Q a 0 (l ++ [(a, 0)]))
    (hup : ∀ a b l, 1 ≤ a → a < rowsOf seq2 → 1 ≤ b → b < colsOf seq1 →
      dirAt w seq1 seq2 a b = 1 → Q a (b - 1) l → Q a b (l ++ [(a, b)]))
    (hdiag : ∀ a b l, 1 ≤ a → a < rowsOf seq2 → 1 ≤ b → b < colsOf seq1 →
      dirAt w seq1 seq2 a b = 2 → Q (a - 1) (b - 1) l → Q a b (l ++ [(a, b)]))
    (hleft : ∀ a b l, 1 ≤ a → a < rowsOf seq2 → 1 ≤ b → b < colsOf seq1 →
      dirAt w seq1 seq2 a b = 3 → Q (a - 1) b l → Q a b (l ++ [(a, b)])) :
    ∀ (fuel a b : Nat), a < rowsOf seq2 → b < colsOf seq1 → a + b ≤ fuel →
      Q a b (pathOf (filled w seq1 seq2).ptr fuel (a, b)) := by
  intro fuel
  induction fuel with
  | zero =>
    intro a b _ _ h
    obtain ⟨rfl, rfl⟩ : a = 0 ∧ b = 0 := by omega
    rw [pathOf_origin _ _ _ (by rw [filled_node_origin]; rfl)]
    exact horigin
  | succ f ih =>
    intro a b ha hb h
    by_cases h00 : a = 0 ∧ b = 0
    · obtain ⟨rfl, rfl⟩ := h00
      rw [pathOf_origin _ _ _ (by rw [filled_node_origin]; rfl)]
      exact horigin
    · by_cases ha0 : a = 0
      · subst ha0
        rw [pathOf_step _ f (0, b) (0, b - 1) (by
          show ((filled w seq1 seq2).ptr 0 b).prev = _
          rw [filled_node_row w seq1 seq2 b (by omega) hb]; rfl)]
        exact hrow b _ (by omega) hb (ih 0 (b - 1) ha (by omega) (by omega))
      · by_cases hb0 : b = 0
        · subst hb0
          rw [pathOf_step _ f (a, 0) (a - 1, 0) (by
            show ((filled w seq1 seq2).ptr a 0).prev = _
            rw [filled_node_col w seq1 seq2 a (by omega) ha]; rfl)]
          exact hcol a _ (by omega) ha (ih (a - 1) 0 (by omega) hb (by omega))
        · have hn := filled_node_interior w seq1 seq2 a b (by omega) ha (by omega) hb
          rcases findMax_which w seq1 seq2 (filled w seq1 seq2).scoringMatrix a b
            with e | e | e
          · rw [pathOf_step _ f (a, b) (a, b - 1) (by
              show ((filled w seq1 seq2).ptr a b).prev = _
              rw [hn]; simp [fillNode, dirAt, e])]
            exact hup a b _ (by omega) ha (by omega) hb e
              (ih a (b - 1) ha (by omega) (by omega))
          · rw [pathOf_step _ f (a, b) (a - 1, b - 1) (by
              show ((filled w seq1 seq2).ptr a b).prev = _
              rw [hn]; simp [fillNode, dirAt, e])]
            exact hdiag a b _ (by omega) ha (by omega) hb e
              (ih (a - 1) (b - 1) (by omega) (by omega) (by omega))
          · rw [pathOf_step _ f (a, b) (a - 1, b) (by
              show ((filled w seq1 seq2).ptr a b).prev = _
              rw [hn]; simp [fillNode, dirAt, e])]
            exact hleft a b _ (by omega) ha (by omega) hb e
              (ih (a - 1) b (by omega) hb (by omega))

/-- The characters of the interior nodes, by direction code. -/
theorem filled_chars_interior (w : Weights) (seq1 seq2 : List Char) (a b : Nat)
    (ha1 : 1 ≤ a) (ha : a < rowsOf seq2) (hb1 : 1 ≤ b) (hb : b < colsOf seq1) :
    (dirAt w seq1 seq2 a b = 1 →
      ((filled w seq1 seq2).ptr a b).ch1 = charAt seq1 (b - 1) ∧
      ((filled w seq1 seq2).ptr a b).ch2 = some '-') ∧
    (dirAt w seq1 seq2 a b = 2 →
      ((filled w seq1 seq2).ptr a b).ch1 = charAt seq1 (b - 1) ∧
      ((filled w seq1 seq2).ptr a b).ch2 = charAt seq2 (a - 1)) ∧
    (dirAt w seq1 seq2 a b = 3 →
      ((filled w seq1 seq2).ptr a b).ch1 = some '-' ∧
      ((filled w seq1 seq2).ptr a b).ch2 = charAt seq2 b) := by
  rw [filled_node_interior w seq1 seq2 a b ha1 ha hb1 hb]
  refine ⟨fun e => ?_, fun e => ?_, fun e => ?_⟩ <;> simp [fillNode, e]

/-- A prefix of positive length is the shorter prefix followed by the symbol read at the
last index. -/
theorem take_pred_append (s : List Char) (b : Nat) (hb1 : 1 ≤ b) (hb : b ≤ s.length) :
    ∃ x, charAt s (b - 1) = some x ∧ x ∈ s ∧ s.take b = s.take (b - 1) ++ [x] := by
  obtain ⟨k, rfl⟩ : ∃ k, b = k + 1 := ⟨b - 1, by omega⟩
  have hk : k < s.length := by omega
  refine ⟨s[k], ?_, List.getElem_mem _, ?_⟩
  · simp [charAt, List.getElem?_eq_getElem hk]
  · rw [Nat.add_sub_cancel, List.take_succ, List.getElem?_eq_getElem hk]
    rfl

/-- The `ch1` characters printed up to a cell of column `b`, gaps removed, are the first
`b` symbols of `seq1`. -/
theorem path_seq1 (w : Weights) (seq1 seq2 : List Char) (h1 : '-' ∉ seq1) :
    ∀ (fuel a b : Nat), a < rowsOf seq2 → b < colsOf seq1 → a + b ≤ fuel →
      (((pathOf (filled w seq1 seq2).ptr fuel (a, b)).map
          (fun p => ((filled w seq1 seq2).ptr p.1 p.2).ch1)).filter
            (fun c => c ≠ some '-'))
        = (seq1.take b).map some := by
  have keep : ∀ (a b : Nat) (l : List (Nat × Nat)), 1 ≤ b → b < colsOf seq1 →
      ((filled w seq1 seq2).ptr a b).ch1 = charAt seq1 (b - 1) →
      ((l.map (fun p => ((filled w seq1 seq2).ptr p.1 p.2).ch1)).filter
          (fun c => c ≠ some '-')) = (seq1.take (b - 1)).map some →
      (((l ++ [(a, b)]).map (fun p => ((filled w seq1 seq2).ptr p.1 p.2).ch1)).filter
          (fun c => c ≠ some '-')) = (seq1.take b).map some := by
    intro a b l hb1 hb hch ih
    obtain ⟨x, hx, hxm, ht⟩ := take_pred_append seq1 b hb1 (by simp only [colsOf] at hb; omega)
    have hxd : x ≠ '-' := fun e => h1 (e ▸ hxm)
    rw [List.map_append, List.filter_append, ih, ht, List.map_append]
    simp [hch, hx, hxd]
  have drop : ∀ (a b : Nat) (l : List (Nat × Nat)),
      ((filled w seq1 seq2).ptr a b).ch1 = some '-' →
      ((l.map (fun p => ((filled w seq1 seq2).ptr p.1 p.2).ch1)).filter
          (fun c => c ≠ some '-')) = (seq1.take b).map some →
      (((l ++ [(a, b)]).map (fun p => ((filled w seq1 seq2).ptr p.1 p.2).ch1)).filter
          (fun c => c ≠ some '-')) = (seq1.take b).map some := by
    intro a b l hch ih
    rw [List.map_append, List.filter_append, ih]
    simp [hch]
  apply path_induction w seq1 seq2
    (fun a b l => ((l.map (fun p => ((filled w seq1 seq2).ptr p.1 p.2).ch1)).filter
      (fun c => c ≠ some '-')) = (seq1.take b).map some)
  · simp
  · intro b l hb1 hb ih
    exact keep 0 b l hb1 hb (by rw [filled_node_row w seq1 seq2 b hb1 hb]; rfl) ih
  · intro a l ha1 ha ih
    exact drop a 0 l (by rw [filled_node_col w seq1 seq2 a ha1 ha]; rfl) ih
  · intro a b l ha1 ha hb1 hb e ih
    exact keep a b l hb1 hb
      ((filled_chars_interior w seq1 seq2 a b ha1 ha hb1 hb).1 e).1 ih
  · intro a b l ha1 ha hb1 hb e ih
    exact keep a b l hb1 hb
      ((filled_chars_interior w seq1 seq2 a b ha1 ha hb1 hb).2.1 e).1 ih
  · intro a b l ha1 ha hb1 hb e ih
    exact drop a b l ((filled_chars_interior w seq1 seq2 a b ha1 ha hb1 hb).2.2 e).1 ih

theorem findMax_value_of_dir (w : Weights) (hw : w.misMatch ≤ w.match_)
    (seq1 seq2 : List Char) (m : Nat → Nat → Int) (x y : Nat) :
    ((findMax w seq1 seq2 m x y).1 = 1 →
      (findMax w seq1 seq2 m x y).2 = upCandidate w m x y) ∧
    ((findMax w seq1 seq2 m x y).1 = 2 →
      (findMax w seq1 seq2 m x y).2 = diagCandidate w seq1 seq2 m x y) ∧
    ((findMax w seq1 seq2 m x y).1 = 3 →
      (findMax w seq1 seq2 m x y).2 = leftCandidate w m x y) := by
  unfold findMax upCandidate leftCandidate diagCandidate
  by_cases hc : charAt seq1 (y - 1) = charAt seq2 (x - 1) <;>
    simp only [hc, true_and, false_and, if_true, if_false, ge_iff_le] <;>
    split_ifs <;> refine ⟨fun h => ?_, fun h => ?_, fun h => ?_⟩ <;> first | rfl | omega

/-- With the program's weights, the column scores of the cells printed up to a cell add up
to the score of that cell. -/
theorem path_score (seq1 seq2 : List Char) (h1 : '-' ∉ seq1) (h2 : '-' ∉ seq2) :
    ∀ (fuel a b : Nat), a < rowsOf seq2 → b < colsOf seq1 → a + b ≤ fuel →
      ((pathOf (filled programWeights seq1 seq2).ptr fuel (a, b)).map
          (fun p => emittedScore programWeights
            ((filled programWeights seq1 seq2).ptr p.1 p.2).ch1
            ((filled programWeights seq1 seq2).ptr p.1 p.2).ch2)).sum
        = (filled programWeights seq1 seq2).scoringMatrix a b := by
  have hg : programWeights.gap = -2 := rfl
  have step : ∀ (a b a0 b0 : Nat) (l : List (Nat × Nat)),
      (l.map (fun p => emittedScore programWeights
            ((filled programWeights seq1 seq2).ptr p.1 p.2).ch1
            ((filled programWeights seq1 seq2).ptr p.1 p.2).ch2)).sum
        = (filled programWeights seq1 seq2).scoringMatrix a0 b0 →
      (filled programWeights seq1 seq2).scoringMatrix a0 b0 +
          emittedScore programWeights ((filled programWeights seq1 seq2).ptr a b).ch1
            ((filled programWeights seq1 seq2).ptr a b).ch2
        = (filled programWeights seq1 seq2).scoringMatrix a b →
      ((l ++ [(a, b)]).map (fun p => emittedScore programWeights
            ((filled programWeights seq1 seq2).ptr p.1 p.2).ch1
            ((filled programWeights seq1 seq2).ptr p.1 p.2).ch2)).sum
        = (filled programWeights seq1 seq2).scoringMatrix a b := by
    intro a b a0 b0 l ih hs
    rw [List.map_append, List.sum_append, ih, ← hs]
    simp
  apply path_induction programWeights seq1 seq2
    (fun a b l => (l.map (fun p => emittedScore programWeights
            ((filled programWeights seq1 seq2).ptr p.1 p.2).ch1
            ((filled programWeights seq1 seq2).ptr p.1 p.2).ch2)).sum
        = (filled programWeights seq1 seq2).scoringMatrix a b)
  · rw [filled_score_border _ seq1 seq2 0 0 (by simp [rowsOf]) (by simp [colsOf]) (Or.inl rfl)]
    simp
  · intro b l hb1 hb ih
    refine step 0 b 0 (b - 1) l ih ?_
    rw [filled_node_row _ seq1 seq2 b hb1 hb,
      filled_score_border _ seq1 seq2 0 b (by simp [rowsOf]) hb (Or.inl rfl),
      filled_score_border _ seq1 seq2 0 (b - 1) (by simp [rowsOf]) (by omega) (Or.inl rfl)]
    simp only [rowNode, emittedScore, or_true, if_true, hg]
    omega
  · intro a l ha1 ha ih
    refine step a 0 (a - 1) 0 l ih ?_
    rw [filled_node_col _ seq1 seq2 a ha1 ha,
      filled_score_border _ seq1 seq2 a 0 ha (by simp [colsOf]) (Or.inr rfl),
      filled_score_border _ seq1 seq2 (a - 1) 0 (by omega) (by simp [colsOf]) (Or.inr rfl)]
    simp only [colNode, emittedScore, true_or, if_true, hg]
    omega
  · intro a b l ha1 ha hb1 hb e ih
    refine step a b a (b - 1) l ih ?_
    obtain ⟨c1, c2⟩ := (filled_chars_interior _ seq1 seq2 a b ha1 ha hb1 hb).1 e
    rw [c1, c2, (filled_interior _ seq1 seq2 a b ha1 ha hb1 hb).1,
      (findMax_value_of_dir _ programWeights_le seq1 seq2 _ a b).1 e]
    simp [emittedScore, upCandidate]
  · intro a b l ha1 ha hb1 hb e ih
    refine step a b (a - 1) (b - 1) l ih ?_
    obtain ⟨c1, c2⟩ := (filled_chars_interior _ seq1 seq2 a b ha1 ha hb1 hb).2.1 e
    obtain ⟨x, hx, hxm, _⟩ := take_pred_append seq1 b hb1 (by simp only [colsOf] at hb; omega)
    obtain ⟨y, hy, hym, _⟩ := take_pred_append seq2 a ha1 (by simp only [rowsOf] at ha; omega)
    have hxd : x ≠ '-' := fun e => h1 (e ▸ hxm)
    have hyd : y ≠ '-' := fun e => h2 (e ▸ hym)
    rw [c1, c2, (filled_interior _ seq1 seq2 a b ha1 ha hb1 hb).1,
      (findMax_value_of_dir _ programWeights_le seq1 seq2 _ a b).2.1 e]
    simp [emittedScore, diagCandidate, hx, hy, hxd, hyd]
  · intro a b l ha1 ha hb1 hb e ih
    refine step a b (a - 1) b l ih ?_
    obtain ⟨c1, c2⟩ := (filled_chars_interior _ seq1 seq2 a b ha1 ha hb1 hb).2.2 e
    rw [c1, c2, (filled_interior _ seq1 seq2 a b ha1 ha hb1 hb).1,
      (findMax_value_of_dir _ programWeights_le seq1 seq2 _ a b).2.2 e]
    simp [emittedScore, leftCandidate]

/-- Along row 0 and along column 0 the printed cells pair each symbol with `'-'`. -/
theorem path_border (w : Weights) (seq1 seq2 : List Char) :
    ∀ (fuel a b : Nat), a < rowsOf seq2 → b < colsOf seq1 → a + b ≤ fuel →
      (a = 0 →
        (pathOf (filled w seq1 seq2).ptr fuel (a, b)).map
            (fun p => ((filled w seq1 seq2).ptr p.1 p.2).ch1) = (seq1.take b).map some ∧
        (pathOf (filled w seq1 seq2).ptr fuel (a, b)).map
            (fun p => ((filled w seq1 seq2).ptr p.1 p.2).ch2)
          = List.replicate b (some '-')) ∧
      (b = 0 →
        (pathOf (filled w seq1 seq2).ptr fuel (a, b)).map
            (fun p => ((filled w seq1 seq2).ptr p.1 p.2).ch1)
          = List.replicate a (some '-') ∧
        (pathOf (filled w seq1 seq2).ptr fuel (a, b)).map
            (fun p => ((filled w seq1 seq2).ptr p.1 p.2).ch2) = (seq2.take a).map some) := by
  apply path_induction w seq1 seq2
    (fun a b l =>
      (a = 0 →
        l.map (fun p => ((filled w seq1 seq2).ptr p.1 p.2).ch1) = (seq1.take b).map some ∧
        l.map (fun p => ((filled w seq1 seq2).ptr p.1 p.2).ch2)
          = List.replicate b (some '-')) ∧
      (b = 0 →
        l.map (fun p => ((filled w seq1 seq2).ptr p.1 p.2).ch1)
          = List.replicate a (some '-') ∧
        l.map (fun p => ((filled w seq1 seq2).ptr p.1 p.2).ch2) = (seq2.take a).map some))
  · simp
  · intro b l hb1 hb ih
    refine ⟨fun _ => ?_, fun h => by omega⟩
    obtain ⟨i1, i2⟩ := ih.1 rfl
    obtain ⟨x, hx, _, ht⟩ := take_pred_append seq1 b hb1 (by simp only [colsOf] at hb; omega)
    obtain ⟨k, rfl⟩ : ∃ k, b = k + 1 := ⟨b - 1, by omega⟩
    have hn := filled_node_row w seq1 seq2 _ hb1 hb
    rw [List.map_append, List.map_append, i1, i2, ht, List.replicate_succ', List.map_append]
    simp only [Nat.add_sub_cancel] at hx
    simp [hn, rowNode, hx]
  · intro a l ha1 ha ih
    refine ⟨fun h => by omega, fun _ => ?_⟩
    obtain ⟨i1, i2⟩ := ih.2 rfl
    obtain ⟨x, hx, _, ht⟩ := take_pred_append seq2 a ha1 (by simp only [rowsOf] at ha; omega)
    obtain ⟨k, rfl⟩ : ∃ k, a = k + 1 := ⟨a - 1, by omega⟩
    have hn := filled_node_col w seq1 seq2 _ ha1 ha
    rw [List.map_append, List.map_append, i1, i2, ht, List.replicate_succ', List.map_append]
    simp only [Nat.add_sub_cancel] at hx
    simp [hn, colNode, hx]
  · intro a b l ha1 _ hb1 _ _ _
    exact ⟨fun h => by omega, fun h => by omega⟩
  · intro a b l ha1 _ hb1 _ _ _
    exact ⟨fun h => by omega, fun h => by omega⟩
  · intro a b l ha1 _ hb1 _ _ _
    exact ⟨fun h => by omega, fun h => by omega⟩

theorem take_eq_append_singleton (s l : List Char) (x : Char) (j : Nat) (hj : j ≤ s.length)
    (h : s.take j = l ++ [x]) :
    1 ≤ j ∧ l = s.take (j - 1) ∧ charAt s (j - 1) = some x := by
  have h1 : 1 ≤ j := by
    rcases Nat.eq_zero_or_pos j with e | e
    · subst e
      simp at h
    · exact e
  obtain ⟨y, hy, _, ht⟩ := take_pred_append s j h1 hj
  rw [ht] at h
  have h2 := List.append_inj' h rfl
  refine ⟨h1, h2.1.symm, ?_⟩
  rw [hy]
  simpa using h2.2

theorem filled_ge_up (seq1 seq2 : List Char) (i j : Nat) (hi : i < rowsOf seq2)
    (hj1 : 1 ≤ j) (hj : j < colsOf seq1) :
    (filled programWeights seq1 seq2).scoringMatrix i (j - 1) + programWeights.gap
      ≤ (filled programWeights seq1 seq2).scoringMatrix i j := by
  have hg : programWeights.gap = -2 := rfl
  by_cases h0 : i = 0
  · rw [filled_score_border _ seq1 seq2 i j hi hj (Or.inl h0),
      filled_score_border _ seq1 seq2 i (j - 1) hi (by omega) (Or.inl h0), hg]
    omega
  · rw [filled_recurrence programWeights programWeights_le seq1 seq2 i j (by omega) hi hj1 hj]
    simp only [upCandidate]
    omega

theorem filled_ge_left (seq1 seq2 : List Char) (i j : Nat) (hi1 : 1 ≤ i)
    (hi : i < rowsOf seq2) (hj : j < colsOf seq1) :
    (filled programWeights seq1 seq2).scoringMatrix (i - 1) j + programWeights.gap
      ≤ (filled programWeights seq1 seq2).scoringMatrix i j := by
  have hg : programWeights.gap = -2 := rfl
  by_cases h0 : j = 0
  · rw [filled_score_border _ seq1 seq2 i j hi hj (Or.inr h0),
      filled_score_border _ seq1 seq2 (i - 1) j (by omega) hj (Or.inr h0), hg]
    omega
  · rw [filled_recurrence programWeights programWeights_le seq1 seq2 i j hi1 hi (by omega) hj]
    simp only [leftCandidate]
    omega

theorem filled_ge_diag (seq1 seq2 : List Char) (i j : Nat) (hi1 : 1 ≤ i)
    (hi : i < rowsOf seq2) (hj1 : 1 ≤ j) (hj : j < colsOf seq1) :
    diagCandidate programWeights seq1 seq2 (filled programWeights seq1 seq2).scoringMatrix i j
      ≤ (filled programWeights seq1 seq2).scoringMatrix i j := by
  rw [filled_recurrence programWeights programWeights_le seq1 seq2 i j hi1 hi hj1 hj]
  omega

theorem alignmentScore_append (w : Weights) (l : List (Option Char × Option Char))
    (c : Option Char × Option Char) :
    alignmentScore w (l ++ [c]) = alignmentScore w l + columnScore w c := by
  simp [alignmentScore]

/-- No alignment of a prefix of `seq1` with a prefix of `seq2` scores above the cell of the
filled matrix for these prefixes. -/
theorem alignment_le_cell (seq1 seq2 : List Char) (al : List (Option Char × Option Char)) :
    ∀ (i j : Nat), i < rowsOf seq2 → j < colsOf seq1 →
      IsAlignment al (seq1.take j) (seq2.take i) →
      alignmentScore programWeights al
        ≤ (filled programWeights seq1 seq2).scoringMatrix i j := by
  induction al using List.reverseRecOn with
  | nil =>
    intro i j hi hj h
    simp only [rowsOf, colsOf] at hi hj
    have e1 : j = 0 := by
      have := congrArg List.length h.1
      simp at this
      omega
    have e2 : i = 0 := by
      have := congrArg List.length h.2.1
      simp at this
      omega
    subst e1 e2
    rw [filled_score_border _ seq1 seq2 0 0 (by simp [rowsOf]) (by simp [colsOf]) (Or.inl rfl)]
    simp [alignmentScore]
  | append_singleton l c ih =>
    intro i j hi hj h
    obtain ⟨h1, h2, h3⟩ := h
    have hl3 : (none, none) ∉ l := fun hm => h3 (List.mem_append_left _ hm)
    have hi2 : i ≤ seq2.length := by simp only [rowsOf] at hi; omega
    have hj2 : j ≤ seq1.length := by simp only [colsOf] at hj; omega
    rw [alignmentScore_append]
    obtain ⟨c1, c2⟩ := c
    cases c1 with
    | none =>
      cases c2 with
      | none => exact absurd (List.mem_append_right _ (List.mem_singleton_self _)) h3
      | some y =>
        simp only [List.filterMap_append, List.filterMap_cons, List.filterMap_nil,
          List.append_nil] at h1 h2
        obtain ⟨a1, a2, a3⟩ := take_eq_append_singleton seq2 _ y i hi2 h2.symm
        have := ih (i - 1) j (by omega) hj ⟨h1, a2, hl3⟩
        have hge := filled_ge_left seq1 seq2 i j a1 hi hj
        simp only [columnScore]
        omega
    | some x =>
      cases c2 with
      | none =>
        simp only [List.filterMap_append, List.filterMap_cons, List.filterMap_nil,
          List.append_nil] at h1 h2
        obtain ⟨a1, a2, a3⟩ := take_eq_append_singleton seq1 _ x j hj2 h1.symm
        have := ih i (j - 1) hi (by omega) ⟨a2, h2, hl3⟩
        have hge := filled_ge_up seq1 seq2 i j hi a1 hj
        simp only [columnScore]
        omega
      | some y =>
        simp only [List.filterMap_append, List.filterMap_cons, List.filterMap_nil] at h1 h2
        obtain ⟨a1, a2, a3⟩ := take_eq_append_singleton seq1 _ x j hj2 h1.symm
        obtain ⟨b1, b2, b3⟩ := take_eq_append_singleton seq2 _ y i hi2 h2.symm
        have := ih (i - 1) (j - 1) (by omega) (by omega) ⟨a2, b2, hl3⟩
        have hge := filled_ge_diag seq1 seq2 i j b1 hi a1 hj
        simp only [diagCandidate, a3, b3, Option.some.injEq] at hge
        simp only [columnScore]
        omega

/-- Some alignment of the prefixes attains the score of their cell. -/
theorem exists_alignment_cell (seq1 seq2 : List Char) :
    ∀ (n i j : Nat), i + j ≤ n → i < rowsOf seq2 → j < colsOf seq1 →
      ∃ al, IsAlignment al (seq1.take j) (seq2.take i) ∧
        alignmentScore programWeights al
          = (filled programWeights seq1 seq2).scoringMatrix i j := by
  have hg : programWeights.gap = -2 := rfl
  have snocUp : ∀ (i j : Nat), 1 ≤ j → j < colsOf seq1 →
      (∃ al, IsAlignment al (seq1.take (j - 1)) (seq2.take i) ∧
        alignmentScore programWeights al
          = (filled programWeights seq1 seq2).scoringMatrix i (j - 1)) →
      ∃ al, IsAlignment al (seq1.take j) (seq2.take i) ∧
        alignmentScore programWeights al
          = (filled programWeights seq1 seq2).scoringMatrix i (j - 1)
            + programWeights.gap := by
    intro i j hj1 hj ⟨al, ⟨a1, a2, a3⟩, as⟩
    obtain ⟨x, _, _, ht⟩ := take_pred_append seq1 j hj1 (by simp only [colsOf] at hj; omega)
    refine ⟨al ++ [(some x, none)], ⟨?_, ?_, ?_⟩, ?_⟩
    · simp [List.filterMap_append, a1, ht]
    · simp [List.filterMap_append, a2]
    · simpa using a3
    · rw [alignmentScore_append, as]
      rfl
  have snocLeft : ∀ (i j : Nat), 1 ≤ i → i < rowsOf seq2 →
      (∃ al, IsAlignment al (seq1.take j) (seq2.take (i - 1)) ∧
        alignmentScore programWeights al
          = (filled programWeights seq1 seq2).scoringMatrix (i - 1) j) →
      ∃ al, IsAlignment al (seq1.take j) (seq2.take i) ∧
        alignmentScore programWeights al
          = (filled programWeights seq1 seq2).scoringMatrix (i - 1) j
            + programWeights.gap := by
    intro i j hi1 hi ⟨al, ⟨a1, a2, a3⟩, as⟩
    obtain ⟨y, _, _, ht⟩ := take_pred_append seq2 i hi1 (by simp only [rowsOf] at hi; omega)
    refine ⟨al ++ [(none, some y)], ⟨?_, ?_, ?_⟩, ?_⟩
    · simp [List.filterMap_append, a1]
    · simp [List.filterMap_append, a2, ht]
    · simpa using a3
    · rw [alignmentScore_append, as]
      rfl
  have snocDiag : ∀ (i j : Nat), 1 ≤ i → i < rowsOf seq2 → 1 ≤ j → j < colsOf seq1 →
      (∃ al, IsAlignment al (seq1.take (j - 1)) (seq2.take (i - 1)) ∧
        alignmentScore programWeights al
          = (filled programWeights seq1 seq2).scoringMatrix (i - 1) (j - 1)) →
      ∃ al, IsAlignment al (seq1.take j) (seq2.take i) ∧
        alignmentScore programWeights al
          = diagCandidate programWeights seq1 seq2
              (filled programWeights seq1 seq2).scoringMatrix i j := by
    intro i j hi1 hi hj1 hj ⟨al, ⟨a1, a2, a3⟩, as⟩
    obtain ⟨x, hx, _, htx⟩ := take_pred_append seq1 j hj1 (by simp only [colsOf] at hj; omega)
    obtain ⟨y, hy, _, hty⟩ := take_pred_append seq2 i hi1 (by simp only [rowsOf] at hi; omega)
    refine ⟨al ++ [(some x, some y)], ⟨?_, ?_, ?_⟩, ?_⟩
    · simp [List.filterMap_append, a1, htx]
    · simp [List.filterMap_append, a2, hty]
    · simpa using a3
    · rw [alignmentScore_append, as]
      simp [diagCandidate, columnScore, hx, hy]
  intro n
  induction n with
  | zero =>
    intro i j h hi hj
    obtain ⟨rfl, rfl⟩ : i = 0 ∧ j = 0 := by omega
    refine ⟨[], ⟨by simp, by simp, by simp⟩, ?_⟩
    rw [filled_score_border _ seq1 seq2 0 0 hi hj (Or.inl rfl)]
    simp [alignmentScore]
  | succ n ih =>
    intro i j h hi hj
    by_cases h00 : i = 0 ∧ j = 0
    · obtain ⟨rfl, rfl⟩ := h00
      refine ⟨[], ⟨by simp, by simp, by simp⟩, ?_⟩
      rw [filled_score_border _ seq1 seq2 0 0 hi hj (Or.inl rfl)]
      simp [alignmentScore]
    · by_cases hi0 : i = 0
      · obtain ⟨al, h1, h2⟩ := snocUp i j (by omega) hj (ih i (j - 1) (by omega) hi (by omega))
        refine ⟨al, h1, ?_⟩
        rw [h2, filled_score_border _ seq1 seq2 i j hi hj (Or.inl hi0),
          filled_score_border _ seq1 seq2 i (j - 1) hi (by omega) (Or.inl hi0), hg]
        omega
      · by_cases hj0 : j = 0
        · obtain ⟨al, h1, h2⟩ := snocLeft i j (by omega) hi
            (ih (i - 1) j (by omega) (by omega) hj)
          refine ⟨al, h1, ?_⟩
          rw [h2, filled_score_border _ seq1 seq2 i j hi hj (Or.inr hj0),
            filled_score_border _ seq1 seq2 (i - 1) j (by omega) hj (Or.inr hj0), hg]
          omega
        · have hrec := filled_recurrence programWeights programWeights_le seq1 seq2 i j
            (by omega) hi (by omega) hj
          obtain ⟨al1, u1, u2⟩ := snocUp i j (by omega) hj
            (ih i (j - 1) (by omega) hi (by omega))
          obtain ⟨al2, l1, l2⟩ := snocLeft i j (by omega) hi
            (ih (i - 1) j (by omega) (by omega) hj)
          obtain ⟨al3, d1, d2⟩ := snocDiag i j (by omega) hi (by omega) hj
            (ih (i - 1) (j - 1) (by omega) (by omega) (by omega))
          simp only [upCandidate, leftCandidate] at hrec
          rcases max_choice
            ((filled programWeights seq1 seq2).scoringMatrix i (j - 1) + programWeights.gap)
            (max ((filled programWeights seq1 seq2).scoringMatrix (i - 1) j
                + programWeights.gap)
              (diagCandidate programWeights seq1 seq2
                (filled programWeights seq1 seq2).scoringMatrix i j)) with e | e
          · exact ⟨al1, u1, by rw [u2, hrec, e]⟩
          · rcases max_choice
              ((filled programWeights seq1 seq2).scoringMatrix (i - 1) j + programWeights.gap)
              (diagCandidate programWeights seq1 seq2
                (filled programWeights seq1 seq2).scoringMatrix i j) with e2 | e2
            · exact ⟨al2, l1, by rw [l2, hrec, e, e2]⟩
            · exact ⟨al3, d1, by rw [d2, hrec, e, e2]⟩

/-! ## Further facts on the filled score matrix -/

/-- With the program's weights every cell of the rectangle scores at least what gaps alone
give. -/
theorem filled_ge_allgap (seq1 seq2 : List Char) :
    ∀ (n i j : Nat), i + j ≤ n → i < rowsOf seq2 → j < colsOf seq1 →
      -2 * ((i : Int) + (j : Int))
        ≤ (filled programWeights seq1 seq2).scoringMatrix i j := by
  have hg : programWeights.gap = -2 := rfl
  intro n
  induction n with
  | zero =>
    intro i j h hi hj
    rw [filled_score_border _ seq1 seq2 i j hi hj (by omega)]
  | succ n ih =>
    intro i j h hi hj
    by_cases hj0 : j = 0
    · rw [filled_score_border _ seq1 seq2 i j hi hj (Or.inr hj0)]
    · have h1 := filled_ge_up seq1 seq2 i j hi (by omega) hj
      have h2 := ih i (j - 1) (by omega) hi (by omega)
      rw [hg] at h1
      omega

/-- With the program's weights the score matrix of the run on `(b, a)` is the transpose
of the score matrix of the run on `(a, b)`. -/
theorem filled_transpose (a b : List Char) :
    ∀ (n i j : Nat), i + j ≤ n → i < rowsOf b → j < colsOf a →
      (filled programWeights b a).scoringMatrix j i
        = (filled programWeights a b).scoringMatrix i j := by
  intro n
  induction n with
  | zero =>
    intro i j h hi hj
    have hi2 : i < colsOf b := hi
    have hj2 : j < rowsOf a := hj
    rw [filled_score_border _ a b i j hi hj (by omega),
      filled_score_border _ b a j i hj2 hi2 (by omega)]
    omega
  | succ n ih =>
    intro i j h hi hj
    have hi2 : i < colsOf b := hi
    have hj2 : j < rowsOf a := hj
    by_cases h0 : i = 0 ∨ j = 0
    · rw [filled_score_border _ a b i j hi hj h0,
        filled_score_border _ b a j i hj2 hi2 (by omega)]
      omega
    · rw [filled_recurrence programWeights programWeights_le a b i j (by omega) hi
          (by omega) hj,
        filled_recurrence programWeights programWeights_le b a j i (by omega) hj2
          (by omega) hi2]
      simp only [upCandidate, leftCandidate, diagCandidate]
      rw [ih i (j - 1) (by omega) hi (by omega), ih (i - 1) j (by omega) (by omega) hj,
        ih (i - 1) (j - 1) (by omega) (by omega) (by omega)]
      have e : (charAt b (i - 1) = charAt a (j - 1)) ↔ (charAt a (j - 1) = charAt b (i - 1)) :=
        eq_comm
      simp only [e]
      omega

/-- Aligning a sequence with itself: the cells of the main diagonal score their index and
are reached diagonally. -/
theorem self_diag (s : List Char) :
    ∀ k : Nat, k < rowsOf s →
      (filled programWeights s s).scoringMatrix k k = (k : Int) ∧
      (1 ≤ k → dirAt programWeights s s k k = 2) := by
  have hg : programWeights.gap = -2 := rfl
  have hm : programWeights.match_ = 1 := rfl
  intro k
  induction k with
  | zero =>
    intro h
    refine ⟨?_, fun h1 => by omega⟩
    rw [filled_score_border _ s s 0 0 h (by simp [colsOf]) (Or.inl rfl)]
    simp
  | succ k ih =>
    intro h
    have hc : k + 1 < colsOf s := h
    obtain ⟨ihM, _⟩ := ih (by omega)
    have hup := (filled_le_index s s _ (k + 1) k (le_refl _) h (by omega)).2
    have hleft := (filled_le_index s s _ k (k + 1) (le_refl _) (by omega) hc).1
    have hu : upCandidate programWeights (filled programWeights s s).scoringMatrix
        (k + 1) (k + 1) ≤ (k : Int) - 2 := by
      simp only [upCandidate, Nat.add_sub_cancel, hg]
      omega
    have hl : leftCandidate programWeights (filled programWeights s s).scoringMatrix
        (k + 1) (k + 1) ≤ (k : Int) - 2 := by
      simp only [leftCandidate, Nat.add_sub_cancel, hg]
      omega
    have hd : diagCandidate programWeights s s (filled programWeights s s).scoringMatrix
        (k + 1) (k + 1) = (k : Int) + 1 := by
      simp only [diagCandidate, Nat.add_sub_cancel, ihM, if_true, hm]
    constructor
    · rw [filled_recurrence programWeights programWeights_le s s (k + 1) (k + 1) (by omega) h
        (by omega) hc, hd]
      push_cast
      omega
    · intro _
      rw [dirAt, findMax_dir programWeights programWeights_le, if_pos (by omega)]

/-- Aligning a sequence with itself: up to a cell of the main diagonal `backTrack` prints
the prefix of the sequence on both lines. -/
theorem path_self (s : List Char) :
    ∀ (fuel a b : Nat), a < rowsOf s → b < colsOf s → a + b ≤ fuel →
      (a = b →
        (pathOf (filled programWeights s s).ptr fuel (a, b)).map
            (fun p => ((filled programWeights s s).ptr p.1 p.2).ch1) = (s.take a).map some ∧
        (pathOf (filled programWeights s s).ptr fuel (a, b)).map
            (fun p => ((filled programWeights s s).ptr p.1 p.2).ch2)
          = (s.take a).map some) := by
  apply path_induction programWeights s s
    (fun a b l => a = b →
      l.map (fun p => ((filled programWeights s s).ptr p.1 p.2).ch1) = (s.take a).map some ∧
      l.map (fun p => ((filled programWeights s s).ptr p.1 p.2).ch2) = (s.take a).map some)
  · intro _
    simp
  · intro b l hb1 _ _ h
    omega
  · intro a l ha1 _ _ h
    omega
  · intro a b l ha1 ha hb1 hb e _ h
    subst h
    rw [(self_diag s a ha).2 ha1] at e
    exact absurd e (by decide)
  · intro a b l ha1 ha hb1 hb e ih h
    subst h
    obtain ⟨i1, i2⟩ := ih rfl
    obtain ⟨c1, c2⟩ := (filled_chars_interior _ s s a a ha1 ha hb1 hb).2.1 e
    obtain ⟨x, hx, _, ht⟩ := take_pred_append s a ha1 (by simp only [rowsOf] at ha; omega)
    rw [List.map_append, List.map_append, i1, i2, ht, List.map_append]
    simp [c1, c2, hx]
  · intro a b l ha1 ha hb1 hb e _ h
    subst h
    rw [(self_diag s a ha).2 ha1] at e
    exact absurd e (by decide)

/-- Every cell of the rectangle other than the origin has a predecessor one row up, one
column back, or both. -/
theorem filled_prev_cases (w : Weights) (seq1 seq2 : List Char) (a b : Nat)
    (ha : a < rowsOf seq2) (hb : b < colsOf seq1) (hab : ¬(a = 0 ∧ b = 0)) :
    ∃ q : Nat × Nat, ((filled w seq1 seq2).ptr a b).prev = some q ∧
      q.1 ≤ a ∧ q.2 ≤ b ∧ a ≤ q.1 + 1 ∧ b ≤ q.2 + 1 ∧ q.1 + q.2 < a + b := by
  by_cases ha0 : a = 0
  · subst ha0
    refine ⟨(0, b - 1), ?_, by simp, by simp, by simp, by simp; omega, by simp; omega⟩
    rw [filled_node_row w seq1 seq2 b (by omega) hb]
    rfl
  · by_cases hb0 : b = 0
    · subst hb0
      refine ⟨(a - 1, 0), ?_, by simp, by simp, by simp; omega, by simp, by simp; omega⟩
      rw [filled_node_col w seq1 seq2 a (by omega) ha]
      rfl
    · have hn := filled_node_interior w seq1 seq2 a b (by omega) ha (by omega) hb
      rcases findMax_which w seq1 seq2 (filled w seq1 seq2).scoringMatrix a b with e | e | e
      · refine ⟨(a, b - 1), by rw [hn]; simp [fillNode, dirAt, e], by simp, by simp, by simp,
          by simp; omega, by simp; omega⟩
      · refine ⟨(a - 1, b - 1), by rw [hn]; simp [fillNode, dirAt, e], by simp, by simp,
          by simp; omega, by simp; omega, by simp; omega⟩
      · refine ⟨(a - 1, b), by rw [hn]; simp [fillNode, dirAt, e], by simp, by simp,
          by simp; omega, by simp, by simp; omega⟩

/-- The chain of `prev` links from a cell of the rectangle: each link lowers `row + col`,
the chain ends at the origin, and its number of links lies between `max(row, col)` and
`row + col`. -/
theorem chain_spec (w : Weights) (seq1 seq2 : List Char) :
    ∀ (fuel a b : Nat), a < rowsOf seq2 → b < colsOf seq1 → a + b ≤ fuel →
      List.Chain (fun p q : Nat × Nat => q.1 + q.2 < p.1 + p.2) (a, b)
        (prevChain (filled w seq1 seq2).ptr fuel (a, b)) ∧
      ((a, b) :: prevChain (filled w seq1 seq2).ptr fuel (a, b)).getLast? = some (0, 0) ∧
      max a b ≤ (prevChain (filled w seq1 seq2).ptr fuel (a, b)).length ∧
      (prevChain (filled w seq1 seq2).ptr fuel (a, b)).length ≤ a + b := by
  have horigin : ((filled w seq1 seq2).ptr 0 0).prev = none := by
    rw [filled_node_origin]
    rfl
  intro fuel
  induction fuel with
  | zero =>
    intro a b _ _ h
    obtain ⟨rfl, rfl⟩ : a = 0 ∧ b = 0 := by omega
    simp [prevChain]
  | succ f ih =>
    intro a b ha hb h
    by_cases h00 : a = 0 ∧ b = 0
    · obtain ⟨rfl, rfl⟩ := h00
      simp [prevChain, horigin]
    · obtain ⟨⟨qa, qb⟩, hq, q1, q2, q3, q4, q5⟩ :=
        filled_prev_cases w seq1 seq2 a b ha hb h00
      simp only at q1 q2 q3 q4 q5
      have e : prevChain (filled w seq1 seq2).ptr (f + 1) (a, b)
          = (qa, qb) :: prevChain (filled w seq1 seq2).ptr f (qa, qb) := by
        simp [prevChain, hq]
      obtain ⟨i1, i2, i3, i4⟩ := ih qa qb (by omega) (by omega) (by omega)
      rw [e]
      refine ⟨List.Chain.cons q5 i1, ?_, ?_, ?_⟩
      · rw [List.getLast?_cons_cons]
        exact i2
      · simp only [List.length_cons]
        omega
      · simp only [List.length_cons]
        omega

/-! ## `findMax` in 32-bit arithmetic -/

theorem wrap32_of_inInt32 (v : Int) (h : InInt32 v) : wrap32 v = v := by
  obtain ⟨h1, h2⟩ := h
  unfold wrap32
  omega

theorem wrap32_inInt32 (v : Int) : InInt32 (wrap32 v) := by
  unfold wrap32 InInt32
  omega

/-- When none of the four sums overflows, the 32-bit `findMax` computes what the exact one
computes. -/
theorem findMax32_eq_findMax (w : Weights) (seq1 seq2 : List Char) (m : Nat → Nat → Int)
    (x y : Nat) (hup : InInt32 (m x (y - 1) + w.gap)) (hleft : InInt32 (m (x - 1) y + w.gap))
    (hmatch : InInt32 (m (x - 1) (y - 1) + w.match_))
    (hmis : InInt32 (m (x - 1) (y - 1) + w.misMatch)) :
    findMax32 w seq1 seq2 m x y = findMax w seq1 seq2 m x y := by
  simp only [findMax32, findMax, wrap32_of_inInt32 _ hup, wrap32_of_inInt32 _ hleft,
    wrap32_of_inInt32 _ hmatch, wrap32_of_inInt32 _ hmis]

/-- In a run with the program's weights on sequences of fewer than `2^30` symbols in all,
no call of `findMax` overflows: on the filled matrix the 32-bit `findMax` and the exact one
agree at every interior cell. -/
theorem findMax32_filled (seq1 seq2 : List Char)
    (hlen : seq1.length + seq2.length < 1073741824) (i j : Nat)
    (hi1 : 1 ≤ i) (hi2 : i < rowsOf seq2) (hj1 : 1 ≤ j) (hj2 : j < colsOf seq1) :
    findMax32 programWeights seq1 seq2 (filled programWeights seq1 seq2).scoringMatrix i j
      = findMax programWeights seq1 seq2 (filled programWeights seq1 seq2).scoringMatrix i j := by
  have hR : rowsOf seq2 = seq2.length + 1 := rfl
  have hC : colsOf seq1 = seq1.length + 1 := rfl
  have hg : programWeights.gap = -2 := rfl
  have hm : programWeights.match_ = 1 := rfl
  have hmm : programWeights.misMatch = -1 := rfl
  have u1 := filled_ge_allgap seq1 seq2 _ i (j - 1) (le_refl _) hi2 (by omega)
  have u2 := filled_le_index seq1 seq2 _ i (j - 1) (le_refl _) hi2 (by omega)
  have l1 := filled_ge_allgap seq1 seq2 _ (i - 1) j (le_refl _) (by omega) hj2
  have l2 := filled_le_index seq1 seq2 _ (i - 1) j (le_refl _) (by omega) hj2
  have d1 := filled_ge_allgap seq1 seq2 _ (i - 1) (j - 1) (le_refl _) (by omega) (by omega)
  have d2 := filled_le_index seq1 seq2 _ (i - 1) (j - 1) (le_refl _) (by omega) (by omega)
  apply findMax32_eq_findMax
  · rw [hg]; unfold InInt32; omega
  · rw [hg]; unfold InInt32; omega
  · rw [hm]; unfold InInt32; omega
  · rw [hmm]; unfold InInt32; omega

/-! ## The claims -/

/-- C1. Optimality of the final score: for every pair of sequences, with the program's
weights, the run of `main` ends and the value left in `scoringMatrix[rows-1][cols-1]` is
the maximum of the alignment score over all global alignments of `seq1` with `seq2`: some
alignment attains it and no alignment exceeds it. -/
theorem final_score_optimal (seq1 seq2 : List Char) :
    ∃ o, main programWeights seq1 seq2 = some o ∧
      (∃ al, IsAlignment al seq1 seq2 ∧
        alignmentScore programWeights al = finalScore seq1 seq2 o.state) ∧
      (∀ al, IsAlignment al seq1 seq2 →
        alignmentScore programWeights al ≤ finalScore seq1 seq2 o.state) := by
  obtain ⟨o, ho, hM, _, _, _⟩ := main_run programWeights seq1 seq2
  have hr : rowsOf seq2 - 1 < rowsOf seq2 := by simp [rowsOf]
  have hc : colsOf seq1 - 1 < colsOf seq1 := by simp [colsOf]
  have t1 : seq1.take (colsOf seq1 - 1) = seq1 := by simp [colsOf]
  have t2 : seq2.take (rowsOf seq2 - 1) = seq2 := by simp [rowsOf]
  refine ⟨o, ho, ?_, ?_⟩
  · obtain ⟨al, h1, h2⟩ := exists_alignment_cell seq1 seq2 _ (rowsOf seq2 - 1)
      (colsOf seq1 - 1) (le_refl _) hr hc
    rw [t1, t2] at h1
    exact ⟨al, h1, by rw [finalScore, hM, h2]⟩
  · intro al hal
    rw [finalScore, hM]
    apply alignment_le_cell seq1 seq2 al _ _ hr hc
    rw [t1, t2]
    exact hal

/-- C2. Score recurrence: in a run of `main` with the program's weights, which ends, every
interior cell `(i, j)` with `1 ≤ i < rows` and `1 ≤ j < cols` of the final score matrix
holds `max(matrix[i][j-1] + gap, matrix[i-1][j] + gap, matrix[i-1][j-1] + (match if
seq1[j-1] == seq2[i-1] else misMatch))`. -/
theorem score_recurrence (seq1 seq2 : List Char) (i j : Nat)
    (hi1 : 1 ≤ i) (hi2 : i < rowsOf seq2) (hj1 : 1 ≤ j) (hj2 : j < colsOf seq1) :
    ∃ o, main programWeights seq1 seq2 = some o ∧
      o.state.scoringMatrix i j
        = max (o.state.scoringMatrix i (j - 1) + programWeights.gap)
            (max (o.state.scoringMatrix (i - 1) j + programWeights.gap)
              (o.state.scoringMatrix (i - 1) (j - 1) +
                (if charAt seq1 (j - 1) = charAt seq2 (i - 1) then programWeights.match_
                 else programWeights.misMatch))) := by
  obtain ⟨o, ho, hM, _, _, _⟩ := main_run programWeights seq1 seq2
  refine ⟨o, ho, ?_⟩
  rw [hM]
  exact filled_recurrence programWeights programWeights_le seq1 seq2 i j hi1 hi2 hj1 hj2

/-- The recurrence of C2 at cell `(2, 2)` of the run on `seq1 = "AG"`, `seq2 = "GA"`. -/
theorem score_recurrence_witness :
    ∃ o, main programWeights ['A', 'G'] ['G', 'A'] = some o ∧
      o.state.scoringMatrix 2 2
        = max (o.state.scoringMatrix 2 (2 - 1) + programWeights.gap)
            (max (o.state.scoringMatrix (2 - 1) 2 + programWeights.gap)
              (o.state.scoringMatrix (2 - 1) (2 - 1) +
                (if charAt ['A', 'G'] (2 - 1) = charAt ['G', 'A'] (2 - 1)
                 then programWeights.match_ else programWeights.misMatch))) :=
  score_recurrence ['A', 'G'] ['G', 'A'] 2 2 (by decide) (by decide) (by decide) (by decide)

/-- C3. Border invariant: after the border loops of `main`, and still in the final state of
the run, `scoringMatrix[0][0] = 0`, `scoringMatrix[0][j] = j * gap` for `j < cols` and
`scoringMatrix[i][0] = i * gap` for `i < rows`, with `gap` the value of the global `gap`. -/
theorem border_invariant (seq1 seq2 : List Char) (i j : Nat)
    (hi : i < rowsOf seq2) (hj : j < colsOf seq1) :
    ((borders seq1 seq2).scoringMatrix 0 0 = 0 ∧
      (borders seq1 seq2).scoringMatrix 0 j = (j : Int) * programWeights.gap ∧
      (borders seq1 seq2).scoringMatrix i 0 = (i : Int) * programWeights.gap) ∧
    ∃ o, main programWeights seq1 seq2 = some o ∧
      o.state.scoringMatrix 0 0 = 0 ∧
      o.state.scoringMatrix 0 j = (j : Int) * programWeights.gap ∧
      o.state.scoringMatrix i 0 = (i : Int) * programWeights.gap := by
  have h0r : 0 < rowsOf seq2 := by simp [rowsOf]
  have h0c : 0 < colsOf seq1 := by simp [colsOf]
  have hg : programWeights.gap = -2 := rfl
  refine ⟨⟨?_, ?_, ?_⟩, ?_⟩
  · rw [borders_score seq1 seq2 0 0 h0r h0c (Or.inl rfl)]; simp
  · rw [borders_score seq1 seq2 0 j h0r hj (Or.inl rfl), hg]; push_cast; ring
  · rw [borders_score seq1 seq2 i 0 hi h0c (Or.inr rfl), hg]; push_cast; ring
  · obtain ⟨o, ho, hM, _, _, _⟩ := main_run programWeights seq1 seq2
    refine ⟨o, ho, ?_, ?_, ?_⟩
    · rw [hM, filled_score_border _ seq1 seq2 0 0 h0r h0c (Or.inl rfl)]; simp
    · rw [hM, filled_score_border _ seq1 seq2 0 j h0r hj (Or.inl rfl), hg]; push_cast; ring
    · rw [hM, filled_score_border _ seq1 seq2 i 0 hi h0c (Or.inr rfl), hg]; push_cast; ring

/-- The border values of C3 at row 1 and column 2 of the run on `seq1 = "AG"`,
`seq2 = "GA"`. -/
theorem border_invariant_witness :
    ((borders ['A', 'G'] ['G', 'A']).scoringMatrix 0 0 = 0 ∧
      (borders ['A', 'G'] ['G', 'A']).scoringMatrix 0 2 = ((2 : Nat) : Int) * programWeights.gap ∧
      (borders ['A', 'G'] ['G', 'A']).scoringMatrix 1 0
        = ((1 : Nat) : Int) * programWeights.gap) ∧
    ∃ o, main programWeights ['A', 'G'] ['G', 'A'] = some o ∧
      o.state.scoringMatrix 0 0 = 0 ∧
      o.state.scoringMatrix 0 2 = ((2 : Nat) : Int) * programWeights.gap ∧
      o.state.scoringMatrix 1 0 = ((1 : Nat) : Int) * programWeights.gap :=
  border_invariant ['A', 'G'] ['G', 'A'] 1 2 (by decide) (by decide)

/-- C4 (defect of the `which==3` branch, which stores `seq2[j]` for `seq2[i-1]`). The run
on `seq1 = "A"`, `seq2 = "ABC"` prints the `ch2` line `A B B`: removing `'-'` from it does
not give back `seq2`. -/
theorem roundtrip_seq2_fails :
    ∃ o, main programWeights ['A'] ['A', 'B', 'C'] = some o ∧
      o.alignedSeq1 = [some 'A', some '-', some '-'] ∧
      o.alignedSeq2 = [some 'A', some 'B', some 'B'] ∧
      o.alignedSeq2.filter (fun c => c ≠ some '-') ≠ ['A', 'B', 'C'].map some := by
  have h : (main programWeights ['A'] ['A', 'B', 'C']).map
      (fun o => (o.alignedSeq1, o.alignedSeq2))
      = some ([some 'A', some '-', some '-'], [some 'A', some 'B', some 'B']) := by decide
  cases hm : main programWeights ['A'] ['A', 'B', 'C'] with
  | none => rw [hm] at h; exact absurd h (by simp)
  | some o =>
    rw [hm] at h
    simp only [Option.map_some', Option.some.injEq, Prod.mk.injEq] at h
    refine ⟨o, rfl, h.1, h.2, ?_⟩
    rw [h.2]
    decide

/-- C5. Round-trip for `seq1`: for all sequences with no `'-'` in `seq1`, the run of `main`
ends and removing every `'-'` from the line of `ch1` values printed by `backTrack` gives
back `seq1`. -/
theorem roundtrip_seq1 (w : Weights) (seq1 seq2 : List Char) (h1 : '-' ∉ seq1) :
    ∃ o, main w seq1 seq2 = some o ∧
      o.alignedSeq1.filter (fun c => c ≠ some '-') = seq1.map some := by
  obtain ⟨o, ho, _, _, e1, _⟩ := main_run w seq1 seq2
  refine ⟨o, ho, ?_⟩
  rw [e1, alignPath, path_seq1 w seq1 seq2 h1 _ _ _ (by simp [rowsOf]) (by simp [colsOf])
    (by omega)]
  simp [colsOf]

/-- The round-trip of C5 on `seq1 = "A"`, `seq2 = "ABC"`. -/
theorem roundtrip_seq1_witness :
    ∃ o, main programWeights ['A'] ['A', 'B', 'C'] = some o ∧
      o.alignedSeq1.filter (fun c => c ≠ some '-') = ['A'].map some :=
  roundtrip_seq1 programWeights ['A'] ['A', 'B', 'C'] (by decide)

/-- C6. The recovered alignment attains the final score: for sequences without `'-'` and
the program's weights, the run of `main` ends and the column scores of the printed
alignment (gap if either symbol is `'-'`, match if the two symbols are equal, mismatch
otherwise) add up to `scoringMatrix[rows-1][cols-1]`. -/
theorem emitted_alignment_score (seq1 seq2 : List Char) (h1 : '-' ∉ seq1) (h2 : '-' ∉ seq2) :
    ∃ o, main programWeights seq1 seq2 = some o ∧
      emittedTotal programWeights o.alignedSeq1 o.alignedSeq2
        = finalScore seq1 seq2 o.state := by
  obtain ⟨o, ho, hM, _, e1, e2⟩ := main_run programWeights seq1 seq2
  refine ⟨o, ho, ?_⟩
  rw [emittedTotal, e1, e2, List.zip_map', List.map_map, finalScore, hM]
  exact path_score seq1 seq2 h1 h2 _ _ _ (by simp [rowsOf]) (by simp [colsOf]) (by omega)

/-- The score equality of C6 on `seq1 = "AG"`, `seq2 = "GA"`. -/
theorem emitted_alignment_score_witness :
    ∃ o, main programWeights ['A', 'G'] ['G', 'A'] = some o ∧
      emittedTotal programWeights o.alignedSeq1 o.alignedSeq2
        = finalScore ['A', 'G'] ['G', 'A'] o.state :=
  emitted_alignment_score ['A', 'G'] ['G', 'A'] (by decide) (by decide)

/-- C7, counterexample. On `seq1 = "AAA"`, `seq2 = ""` the run does not fail: it ends with
final score `-6` and prints the lines `A A A` and `- - -`. -/
theorem empty_input_not_rejected :
    main programWeights ['A', 'A', 'A'] [] ≠ none ∧
    (main programWeights ['A', 'A', 'A'] []).map
        (fun o => (finalScore ['A', 'A', 'A'] [] o.state, o.alignedSeq1, o.alignedSeq2))
      = some (-6, [some 'A', some 'A', some 'A'], [some '-', some '-', some '-']) := by
  have h : (main programWeights ['A', 'A', 'A'] []).map
        (fun o => (finalScore ['A', 'A', 'A'] [] o.state, o.alignedSeq1, o.alignedSeq2))
      = some (-6, [some 'A', some 'A', some 'A'], [some '-', some '-', some '-']) := by
    decide
  refine ⟨fun e => ?_, h⟩
  rw [e] at h
  exact absurd h (by simp)

/-- C7, as the code has it. A run on an input with an empty sequence is not rejected: for
every pair of sequences of which one is empty, and all weights, `main` ends normally with
final score `-2 * (len(seq1) + len(seq2))` and prints each symbol of the other sequence
against `'-'`. -/
theorem empty_input_run (w : Weights) (seq1 seq2 : List Char) (h : seq1 = [] ∨ seq2 = []) :
    ∃ o, main w seq1 seq2 = some o ∧
      finalScore seq1 seq2 o.state = -2 * ((seq1.length : Int) + (seq2.length : Int)) ∧
      o.alignedSeq1 = seq1.map some ++ List.replicate seq2.length (some '-') ∧
      o.alignedSeq2 = List.replicate seq1.length (some '-') ++ seq2.map some := by
  obtain ⟨o, ho, hM, _, e1, e2⟩ := main_run w seq1 seq2
  refine ⟨o, ho, ?_, ?_⟩
  · rw [finalScore, hM, filled_score_border w seq1 seq2 _ _ (by simp [rowsOf])
      (by simp [colsOf]) (by rcases h with h | h <;> simp [h, rowsOf, colsOf])]
    simp [rowsOf, colsOf]
    ring
  · have hp := path_border w seq1 seq2 (rowsOf seq2 + colsOf seq1) (rowsOf seq2 - 1)
      (colsOf seq1 - 1) (by simp [rowsOf]) (by simp [colsOf]) (by omega)
    rw [e1, e2, alignPath]
    rcases h with h | h
    · obtain ⟨p1, p2⟩ := hp.2 (by simp [h, colsOf])
      rw [p1, p2]
      simp [h, rowsOf]
    · obtain ⟨p1, p2⟩ := hp.1 (by simp [h, rowsOf])
      rw [p1, p2]
      simp [h, colsOf]

/-- The run of C7 on `seq1 = "AAA"`, `seq2 = ""`. -/
theorem empty_input_run_witness :
    ∃ o, main programWeights ['A', 'A', 'A'] [] = some o ∧
      finalScore ['A', 'A', 'A'] [] o.state
        = -2 * ((['A', 'A', 'A'].length : Int) + (([] : List Char).length : Int)) ∧
      o.alignedSeq1 = ['A', 'A', 'A'].map some
        ++ List.replicate ([] : List Char).length (some '-') ∧
      o.alignedSeq2 = List.replicate ['A', 'A', 'A'].length (some '-')
        ++ ([] : List Char).map some :=
  empty_input_run programWeights ['A', 'A', 'A'] [] (Or.inr rfl)

/-- C8. Equal-length alignment: for every pair of sequences, empty ones included, and
all weights, the run of `main` ends and the two lines printed by `backTrack` have the
same number of symbols. -/
theorem aligned_equal_length (w : Weights) (seq1 seq2 : List Char) :
    ∃ o, main w seq1 seq2 = some o ∧ o.alignedSeq1.length = o.alignedSeq2.length := by
  obtain ⟨o, ho, _, _, h1, h2⟩ := main_run w seq1 seq2
  refine ⟨o, ho, ?_⟩
  rw [h1, h2, List.length_map, List.length_map]

/-- C9. Perfect-match ceiling: for every pair of sequences the run of `main` with the
program's weights ends with a final score `scoringMatrix[rows-1][cols-1]` of at most
`max(len(seq1), len(seq2)) * match`. -/
theorem final_score_le_ceiling (seq1 seq2 : List Char) :
    ∃ o, main programWeights seq1 seq2 = some o ∧
      finalScore seq1 seq2 o.state
        ≤ ((max seq1.length seq2.length : Nat) : Int) * programWeights.match_ := by
  obtain ⟨o, ho, hM, _, _, _⟩ := main_run programWeights seq1 seq2
  refine ⟨o, ho, ?_⟩
  have h := filled_le_index seq1 seq2 _ (rowsOf seq2 - 1) (colsOf seq1 - 1) (le_refl _)
    (by simp [rowsOf]) (by simp [colsOf])
  have hm : programWeights.match_ = 1 := rfl
  rw [finalScore, hM, hm]
  simp only [rowsOf, colsOf] at h ⊢
  omega

/-- C10. Deterministic tie-break: at every interior cell of the final matrix of a run with
the program's weights, the direction code that `findMax` returns, which is the code stored
in the node, is 2 (diagonal) whenever `diag` equals the maximum of the three candidates;
otherwise 3 (left) whenever `left` equals the maximum; and it is 1 (up) exactly when `up` is
strictly greater than both `left` and `diag`. -/
theorem tie_break (seq1 seq2 : List Char) (i j : Nat)
    (hi1 : 1 ≤ i) (hi2 : i < rowsOf seq2) (hj1 : 1 ≤ j) (hj2 : j < colsOf seq1) :
    ∃ o, main programWeights seq1 seq2 = some o ∧
      (o.state.ptr i j).which = (findMax programWeights seq1 seq2 o.state.scoringMatrix i j).1 ∧
      (diagCandidate programWeights seq1 seq2 o.state.scoringMatrix i j
          = max (upCandidate programWeights o.state.scoringMatrix i j)
              (max (leftCandidate programWeights o.state.scoringMatrix i j)
                (diagCandidate programWeights seq1 seq2 o.state.scoringMatrix i j)) →
        (o.state.ptr i j).which = 2) ∧
      (diagCandidate programWeights seq1 seq2 o.state.scoringMatrix i j
          ≠ max (upCandidate programWeights o.state.scoringMatrix i j)
              (max (leftCandidate programWeights o.state.scoringMatrix i j)
                (diagCandidate programWeights seq1 seq2 o.state.scoringMatrix i j)) →
        leftCandidate programWeights o.state.scoringMatrix i j
          = max (upCandidate programWeights o.state.scoringMatrix i j)
              (max (leftCandidate programWeights o.state.scoringMatrix i j)
                (diagCandidate programWeights seq1 seq2 o.state.scoringMatrix i j)) →
        (o.state.ptr i j).which = 3) ∧
      ((o.state.ptr i j).which = 1 ↔
        leftCandidate programWeights o.state.scoringMatrix i j
            < upCandidate programWeights o.state.scoringMatrix i j ∧
          diagCandidate programWeights seq1 seq2 o.state.scoringMatrix i j
            < upCandidate programWeights o.state.scoringMatrix i j) := by
  obtain ⟨o, ho, hM, hP, _, _⟩ := main_run programWeights seq1 seq2
  refine ⟨o, ho, ?_⟩
  have hw : (o.state.ptr i j).which
      = (findMax programWeights seq1 seq2 o.state.scoringMatrix i j).1 := by
    rw [(hP i j).2.2.2.1, hM, (filled_interior programWeights seq1 seq2 i j hi1 hi2 hj1 hj2).2]
    rfl
  refine ⟨hw, ?_⟩
  rw [hw, findMax_dir programWeights programWeights_le]
  generalize upCandidate programWeights o.state.scoringMatrix i j = u
  generalize leftCandidate programWeights o.state.scoringMatrix i j = l
  generalize diagCandidate programWeights seq1 seq2 o.state.scoringMatrix i j = d
  refine ⟨fun h => ?_, fun h1 h2 => ?_, ?_⟩
  · rw [if_pos (by omega)]
  · rw [if_neg (by omega), if_pos (by omega)]
  · split_ifs <;> constructor <;> intro h <;> omega

/-- The tie-break of C10 at cell `(2, 2)` of the run on `seq1 = "AG"`, `seq2 = "GA"`, where
`up` and `left` tie below `diag`. -/
theorem tie_break_witness :
    ∃ o, main programWeights ['A', 'G'] ['G', 'A'] = some o ∧
      (o.state.ptr 2 2).which
        = (findMax programWeights ['A', 'G'] ['G', 'A'] o.state.scoringMatrix 2 2).1 ∧
      (diagCandidate programWeights ['A', 'G'] ['G', 'A'] o.state.scoringMatrix 2 2
          = max (upCandidate programWeights o.state.scoringMatrix 2 2)
              (max (leftCandidate programWeights o.state.scoringMatrix 2 2)
                (diagCandidate programWeights ['A', 'G'] ['G', 'A'] o.state.scoringMatrix 2 2)) →
        (o.state.ptr 2 2).which = 2) ∧
      (diagCandidate programWeights ['A', 'G'] ['G', 'A'] o.state.scoringMatrix 2 2
          ≠ max (upCandidate programWeights o.state.scoringMatrix 2 2)
              (max (leftCandidate programWeights o.state.scoringMatrix 2 2)
                (diagCandidate programWeights ['A', 'G'] ['G', 'A'] o.state.scoringMatrix 2 2)) →
        leftCandidate programWeights o.state.scoringMatrix 2 2
          = max (upCandidate programWeights o.state.scoringMatrix 2 2)
              (max (leftCandidate programWeights o.state.scoringMatrix 2 2)
                (diagCandidate programWeights ['A', 'G'] ['G', 'A'] o.state.scoringMatrix 2 2)) →
        (o.state.ptr 2 2).which = 3) ∧
      ((o.state.ptr 2 2).which = 1 ↔
        leftCandidate programWeights o.state.scoringMatrix 2 2
            < upCandidate programWeights o.state.scoringMatrix 2 2 ∧
          diagCandidate programWeights ['A', 'G'] ['G', 'A'] o.state.scoringMatrix 2 2
            < upCandidate programWeights o.state.scoringMatrix 2 2) :=
  tie_break ['A', 'G'] ['G', 'A'] 2 2 (by decide) (by decide) (by decide) (by decide)

/-- C11. Self-alignment: for every sequence `s` without `'-'`, the run of `main` on
`seq1 = seq2 = s` with the program's weights ends with final score `len(s) * match` and
prints `s` on both lines, with no `'-'` on either. -/
theorem self_alignment (s : List Char) (h : '-' ∉ s) :
    ∃ o, main programWeights s s = some o ∧
      finalScore s s o.state = (s.length : Int) * programWeights.match_ ∧
      o.alignedSeq1 = s.map some ∧ o.alignedSeq2 = s.map some ∧
      some '-' ∉ o.alignedSeq1 ∧ some '-' ∉ o.alignedSeq2 := by
  obtain ⟨o, ho, hM, _, e1, e2⟩ := main_run programWeights s s
  have hp := path_self s (rowsOf s + colsOf s) (rowsOf s - 1) (colsOf s - 1)
    (by simp [rowsOf]) (by simp [colsOf]) (by omega) rfl
  have a1 : o.alignedSeq1 = s.map some := by
    rw [e1, alignPath, hp.1]
    simp [rowsOf]
  have a2 : o.alignedSeq2 = s.map some := by
    rw [e2, alignPath, hp.2]
    simp [rowsOf]
  have hno : some '-' ∉ s.map some := by
    simpa using h
  refine ⟨o, ho, ?_, a1, a2, by rw [a1]; exact hno, by rw [a2]; exact hno⟩
  have hm : programWeights.match_ = 1 := rfl
  rw [finalScore, hM, hm]
  have := (self_diag s (rowsOf s - 1) (by simp [rowsOf])).1
  simp only [rowsOf, colsOf, Nat.add_sub_cancel] at this ⊢
  rw [this]
  ring

/-- The self-alignment of C11 on `seq1 = seq2 = "AC"`: score 2 and `AC` on both lines. -/
theorem self_alignment_witness :
    ∃ o, main programWeights ['A', 'C'] ['A', 'C'] = some o ∧
      finalScore ['A', 'C'] ['A', 'C'] o.state
        = (['A', 'C'].length : Int) * programWeights.match_ ∧
      o.alignedSeq1 = ['A', 'C'].map some ∧ o.alignedSeq2 = ['A', 'C'].map some ∧
      some '-' ∉ o.alignedSeq1 ∧ some '-' ∉ o.alignedSeq2 :=
  self_alignment ['A', 'C'] (by decide)

/-- C12. Single-symbol mismatch: for two distinct symbols `a` and `b`, the run of `main` on
`seq1 = [a]`, `seq2 = [b]` with the program's weights has `rows = cols = 2`, displays the
matrix `0 -2 / -2 -1`, ends with final score `-1`, the mismatch weight, and prints the one
column `a` over `b`. -/
theorem single_mismatch (a b : Char) (hab : a ≠ b) :
    rowsOf [b] = 2 ∧ colsOf [a] = 2 ∧
    ∃ o, main programWeights [a] [b] = some o ∧
      display [a] [b] o.state = [[0, -2], [-2, -1]] ∧
      finalScore [a] [b] o.state = -1 ∧
      finalScore [a] [b] o.state = programWeights.misMatch ∧
      o.alignedSeq1 = [some a] ∧ o.alignedSeq2 = [some b] := by
  obtain ⟨o, ho, hM, _, e1, e2⟩ := main_run programWeights [a] [b]
  have hr : (1 : Nat) < rowsOf [b] := by simp [rowsOf]
  have hc : (1 : Nat) < colsOf [a] := by simp [colsOf]
  have hr0 : (0 : Nat) < rowsOf [b] := by simp [rowsOf]
  have hc0 : (0 : Nat) < colsOf [a] := by simp [colsOf]
  have h00 := filled_score_border programWeights [a] [b] 0 0 hr0 hc0 (Or.inl rfl)
  have h01 := filled_score_border programWeights [a] [b] 0 1 hr0 hc (Or.inl rfl)
  have h10 := filled_score_border programWeights [a] [b] 1 0 hr hc0 (Or.inr rfl)
  have hne : ¬(charAt [a] 0 = charAt [b] 0) := by
    simp [charAt, hab]
  have hu : upCandidate programWeights (filled programWeights [a] [b]).scoringMatrix 1 1
      = -4 := by
    simp only [upCandidate, Nat.sub_self, h10]
    rfl
  have hl : leftCandidate programWeights (filled programWeights [a] [b]).scoringMatrix 1 1
      = -4 := by
    simp only [leftCandidate, Nat.sub_self, h01]
    rfl
  have hd : diagCandidate programWeights [a] [b]
      (filled programWeights [a] [b]).scoringMatrix 1 1 = -1 := by
    simp only [diagCandidate, Nat.sub_self, h00, if_neg hne]
    rfl
  have h11 : (filled programWeights [a] [b]).scoringMatrix 1 1 = -1 := by
    rw [filled_recurrence programWeights programWeights_le [a] [b] 1 1 (le_refl _) hr
      (le_refl _) hc, hu, hl, hd]
    rfl
  have hdir : dirAt programWeights [a] [b] 1 1 = 2 := by
    rw [dirAt, findMax_dir programWeights programWeights_le, hu, hl, hd]
    rfl
  obtain ⟨c1, c2⟩ := (filled_chars_interior programWeights [a] [b] 1 1 (le_refl _) hr
    (le_refl _) hc).2.1 hdir
  have hprev : ((filled programWeights [a] [b]).ptr 1 1).prev = some (0, 0) := by
    rw [filled_node_interior programWeights [a] [b] 1 1 (le_refl _) hr (le_refl _) hc]
    simp [fillNode, hdir]
  have hpath : alignPath programWeights [a] [b] = [(1, 1)] := by
    show pathOf (filled programWeights [a] [b]).ptr (3 + 1) (1, 1) = [(1, 1)]
    rw [pathOf_step _ 3 (1, 1) (0, 0) hprev,
      pathOf_origin _ 3 (0, 0) (by rw [filled_node_origin]; rfl)]
    rfl
  refine ⟨rfl, rfl, o, ho, ?_, ?_, ?_, ?_, ?_⟩
  · simp only [display, hM]
    simp [rowsOf, colsOf, List.range_succ, h00, h01, h10, h11]
  · rw [finalScore, hM]
    exact h11
  · rw [finalScore, hM]
    exact h11
  · rw [e1, hpath]
    simp only [List.map_cons, List.map_nil, c1]
    rfl
  · rw [e2, hpath]
    simp only [List.map_cons, List.map_nil, c2]
    rfl

/-- The single mismatch of C12 on `seq1 = "A"`, `seq2 = "C"`. -/
theorem single_mismatch_witness :
    rowsOf ['C'] = 2 ∧ colsOf ['A'] = 2 ∧
    ∃ o, main programWeights ['A'] ['C'] = some o ∧
      display ['A'] ['C'] o.state = [[0, -2], [-2, -1]] ∧
      finalScore ['A'] ['C'] o.state = -1 ∧
      finalScore ['A'] ['C'] o.state = programWeights.misMatch ∧
      o.alignedSeq1 = [some 'A'] ∧ o.alignedSeq2 = [some 'C'] :=
  single_mismatch 'A' 'C' (by decide)

/-- C13, counterexample. No pair of non-empty sequences has a final score strictly below
`(len(seq1) + len(seq2)) * gap` under the program's weights. -/
theorem no_score_below_allgap :
    ¬ ∃ seq1 seq2 : List Char, seq1 ≠ [] ∧ seq2 ≠ [] ∧
      ∃ o, main programWeights seq1 seq2 = some o ∧
        finalScore seq1 seq2 o.state
          < ((seq1.length : Int) + (seq2.length : Int)) * programWeights.gap := by
  rintro ⟨seq1, seq2, _, _, o, ho, hlt⟩
  obtain ⟨o2, ho2, hM, _, _, _⟩ := main_run programWeights seq1 seq2
  have e : o = o2 := Option.some.inj (ho.symm.trans ho2)
  subst e
  have h := filled_ge_allgap seq1 seq2 _ (rowsOf seq2 - 1) (colsOf seq1 - 1) (le_refl _)
    (by simp [rowsOf]) (by simp [colsOf])
  have hg : programWeights.gap = -2 := rfl
  rw [finalScore, hM, hg] at hlt
  simp only [rowsOf, colsOf, Nat.add_sub_cancel] at h hlt
  omega

/-- C13, as the code has it. The all-gap lower bound is valid: for every pair of sequences,
with the program's weights, the run of `main` ends with a final score
`scoringMatrix[rows-1][cols-1]` of at least `(len(seq1) + len(seq2)) * gap`. -/
theorem final_score_ge_allgap (seq1 seq2 : List Char) :
    ∃ o, main programWeights seq1 seq2 = some o ∧
      ((seq1.length : Int) + (seq2.length : Int)) * programWeights.gap
        ≤ finalScore seq1 seq2 o.state := by
  obtain ⟨o, ho, hM, _, _, _⟩ := main_run programWeights seq1 seq2
  refine ⟨o, ho, ?_⟩
  have h := filled_ge_allgap seq1 seq2 _ (rowsOf seq2 - 1) (colsOf seq1 - 1) (le_refl _)
    (by simp [rowsOf]) (by simp [colsOf])
  have hg : programWeights.gap = -2 := rfl
  rw [finalScore, hM, hg]
  simp only [rowsOf, colsOf, Nat.add_sub_cancel] at h ⊢
  omega

/-- C14 (defect of the `which==3` branch, the same as in C4). In the run on `seq1 = "A"`,
`seq2 = "ABC"` the interior cell `(3, 1)` has the code 3 (left) and the predecessor
`(2, 1)`, and holds the pair `('-', 'B')`: its `ch2` is `seq2[1]`, not `seq2[3-1] = 'C'`. -/
theorem left_origin_pair_wrong :
    ∃ o, main programWeights ['A'] ['A', 'B', 'C'] = some o ∧
      (o.state.ptr 3 1).which = 3 ∧ (o.state.ptr 3 1).prev = some (2, 1) ∧
      (o.state.ptr 3 1).ch1 = some '-' ∧ (o.state.ptr 3 1).ch2 = some 'B' ∧
      charAt ['A', 'B', 'C'] (3 - 1) = some 'C' ∧
      (o.state.ptr 3 1).ch2 ≠ charAt ['A', 'B', 'C'] (3 - 1) := by
  have h : (main programWeights ['A'] ['A', 'B', 'C']).map
      (fun o => ((o.state.ptr 3 1).which, (o.state.ptr 3 1).prev, (o.state.ptr 3 1).ch1,
        (o.state.ptr 3 1).ch2))
      = some (3, some (2, 1), some '-', some 'B') := by decide
  cases hm : main programWeights ['A'] ['A', 'B', 'C'] with
  | none => rw [hm] at h; exact absurd h (by simp)
  | some o =>
    rw [hm] at h
    simp only [Option.map_some', Option.some.injEq, Prod.mk.injEq] at h
    obtain ⟨h1, h2, h3, h4⟩ := h
    refine ⟨o, rfl, h1, h2, h3, h4, by decide, ?_⟩
    rw [h4]
    decide

/-- C15. Traceback ends within the defensive bound: for all sequences and weights, the
`prev` links from cell `(rows-1, cols-1)` form a chain on which `row + col` strictly
decreases at every step and which reaches cell `(0, 0)`, whose `prev` is null, after at
least `max(len(seq1), len(seq2))` and at most `len(seq1) + len(seq2) = rows + cols - 2`
steps, fewer than `rows + cols`; the run of `main` ends and prints one column per step. -/
theorem traceback_bound (w : Weights) (seq1 seq2 : List Char) :
    ∃ o chain, main w seq1 seq2 = some o ∧
      IsChain (filled w seq1 seq2).ptr (rowsOf seq2 - 1, colsOf seq1 - 1) chain ∧
      IsChain o.state.ptr (rowsOf seq2 - 1, colsOf seq1 - 1) chain ∧
      List.Chain (fun p q : Nat × Nat => q.1 + q.2 < p.1 + p.2)
        (rowsOf seq2 - 1, colsOf seq1 - 1) chain ∧
      ((rowsOf seq2 - 1, colsOf seq1 - 1) :: chain).getLast? = some (0, 0) ∧
      max seq1.length seq2.length ≤ chain.length ∧
      chain.length ≤ seq1.length + seq2.length ∧
      seq1.length + seq2.length = rowsOf seq2 + colsOf seq1 - 2 ∧
      chain.length < rowsOf seq2 + colsOf seq1 ∧
      o.alignedSeq1.length = chain.length ∧ o.alignedSeq2.length = chain.length := by
  obtain ⟨o, ho, _, hP, e1, e2⟩ := main_run w seq1 seq2
  have hR : rowsOf seq2 = seq2.length + 1 := rfl
  have hC : colsOf seq1 = seq1.length + 1 := rfl
  have hr : rowsOf seq2 - 1 < rowsOf seq2 := by omega
  have hc : colsOf seq1 - 1 < colsOf seq1 := by omega
  obtain ⟨c1, c2, c3, c4⟩ := chain_spec w seq1 seq2 (rowsOf seq2 + colsOf seq1)
    (rowsOf seq2 - 1) (colsOf seq1 - 1) hr hc (by omega)
  have hch := (prevChain_spec (filled w seq1 seq2).ptr (rowsOf seq2 - 1) (colsOf seq1 - 1)
    (filled_descending w seq1 seq2) (rowsOf seq2 + colsOf seq1)
    (rowsOf seq2 - 1, colsOf seq1 - 1) (le_refl _) (le_refl _) (by simp; omega)).1
  refine ⟨o, _, ho, hch, IsChain_of_sameButNext hP _ _ hch, c1, c2, ?_, ?_, ?_, ?_, ?_, ?_⟩
  · omega
  · omega
  · omega
  · omega
  · rw [e1, alignPath, pathOf]
    simp
  · rw [e2, alignPath, pathOf]
    simp

/-- C16, counterexample. In the run on `seq1 = "A"`, `seq2 = "C"` the border loops give the
row-0 cell `(0, 1)` the code 1 (up), not 3 (left), and the column-0 cell `(1, 0)` the code
3 (left), not 1 (up). -/
theorem border_origins_swapped :
    ((borders ['A'] ['C']).ptr 0 1).which = 1 ∧ ((borders ['A'] ['C']).ptr 0 1).which ≠ 3 ∧
    ((borders ['A'] ['C']).ptr 1 0).which = 3 ∧ ((borders ['A'] ['C']).ptr 1 0).which ≠ 1 := by
  decide

/-- C16, as the code has it. After the border loops, and still in the final state of the
run, every row-0 cell `(0, j)` with `1 ≤ j < cols` has the code 1 (up) and the predecessor
`(0, j-1)`, and every column-0 cell `(i, 0)` with `1 ≤ i < rows` has the code 3 (left) and
the predecessor `(i-1, 0)`. -/
theorem border_origins (w : Weights) (seq1 seq2 : List Char) (i j : Nat) :
    (1 ≤ j → j < colsOf seq1 →
      ((borders seq1 seq2).ptr 0 j).which = 1 ∧
      ((borders seq1 seq2).ptr 0 j).prev = some (0, j - 1)) ∧
    (1 ≤ i → i < rowsOf seq2 →
      ((borders seq1 seq2).ptr i 0).which = 3 ∧
      ((borders seq1 seq2).ptr i 0).prev = some (i - 1, 0)) ∧
    ∃ o, main w seq1 seq2 = some o ∧
      (1 ≤ j → j < colsOf seq1 →
        (o.state.ptr 0 j).which = 1 ∧ (o.state.ptr 0 j).prev = some (0, j - 1)) ∧
      (1 ≤ i → i < rowsOf seq2 →
        (o.state.ptr i 0).which = 3 ∧ (o.state.ptr i 0).prev = some (i - 1, 0)) := by
  have hrow : 1 ≤ j → j < colsOf seq1 → (borders seq1 seq2).ptr 0 j = rowNode seq1 j := by
    intro h1 h2
    simp only [colsOf] at h2
    rw [(borders_spec seq1 seq2 0 j).2, if_neg (by omega), if_pos (by omega)]
  have hcol : 1 ≤ i → i < rowsOf seq2 → (borders seq1 seq2).ptr i 0 = colNode seq2 i := by
    intro h1 h2
    simp only [rowsOf] at h2
    rw [(borders_spec seq1 seq2 i 0).2, if_pos (by omega)]
  refine ⟨fun h1 h2 => ?_, fun h1 h2 => ?_, ?_⟩
  · rw [hrow h1 h2]
    exact ⟨rfl, rfl⟩
  · rw [hcol h1 h2]
    exact ⟨rfl, rfl⟩
  · obtain ⟨o, ho, _, hP, _, _⟩ := main_run w seq1 seq2
    refine ⟨o, ho, fun h1 h2 => ?_, fun h1 h2 => ?_⟩
    · rw [(hP 0 j).2.2.2.1, (hP 0 j).1, filled_node_row w seq1 seq2 j h1 h2]
      exact ⟨rfl, rfl⟩
    · rw [(hP i 0).2.2.2.1, (hP i 0).1, filled_node_col w seq1 seq2 i h1 h2]
      exact ⟨rfl, rfl⟩

/-- The border codes of C16 at cells `(0, 2)` and `(1, 0)` of the run on `seq1 = "AG"`,
`seq2 = "GA"`. -/
theorem border_origins_witness :
    (((borders ['A', 'G'] ['G', 'A']).ptr 0 2).which = 1 ∧
      ((borders ['A', 'G'] ['G', 'A']).ptr 0 2).prev = some (0, 2 - 1)) ∧
    (((borders ['A', 'G'] ['G', 'A']).ptr 1 0).which = 3 ∧
      ((borders ['A', 'G'] ['G', 'A']).ptr 1 0).prev = some (1 - 1, 0)) :=
  ⟨(border_origins programWeights ['A', 'G'] ['G', 'A'] 1 2).1 (by decide) (by decide),
   (border_origins programWeights ['A', 'G'] ['G', 'A'] 1 2).2.1 (by decide) (by decide)⟩

/-- C17 (defect of the `which==3` branch, the same as in C4). In the run on
`seq1 = "AABC"`, `seq2 = "BCA"` the interior cell `(3, 4)` has the code 3 (left), so the
fill reads `seq2[4]` in a sequence of length 3: the read yields `none`, which is stored in
`ch2` and printed as the last symbol of the second line. -/
theorem fill_reads_past_seq2 :
    ∃ o, main programWeights ['A', 'A', 'B', 'C'] ['B', 'C', 'A'] = some o ∧
      (o.state.ptr 3 4).which = 3 ∧ (o.state.ptr 3 4).ch2 = charAt ['B', 'C', 'A'] 4 ∧
      ¬(4 < ['B', 'C', 'A'].length) ∧ charAt ['B', 'C', 'A'] 4 = none ∧
      o.alignedSeq2 = [some '-', some '-', some 'B', some 'C', none] := by
  have h : (main programWeights ['A', 'A', 'B', 'C'] ['B', 'C', 'A']).map
      (fun o => ((o.state.ptr 3 4).which, (o.state.ptr 3 4).ch2, o.alignedSeq2))
      = some (3, none, [some '-', some '-', some 'B', some 'C', none]) := by decide
  cases hm : main programWeights ['A', 'A', 'B', 'C'] ['B', 'C', 'A'] with
  | none => rw [hm] at h; exact absurd h (by simp)
  | some o =>
    rw [hm] at h
    simp only [Option.map_some', Option.some.injEq, Prod.mk.injEq] at h
    obtain ⟨h1, h2, h3⟩ := h
    exact ⟨o, rfl, h1, by rw [h2]; decide, by decide, by decide, h3⟩

/-- C18. Score symmetry: with the program's weights the runs on `(seq1, seq2) = (a, b)` and
on `(b, a)` both end, with the same final score, and every cell `(j, i)` of the score
matrix of the swapped run holds the value of cell `(i, j)` of the original one. -/
theorem score_symmetry (a b : List Char) :
    ∃ o1 o2, main programWeights a b = some o1 ∧ main programWeights b a = some o2 ∧
      finalScore a b o1.state = finalScore b a o2.state ∧
      ∀ i j, i < rowsOf b → j < colsOf a →
        o2.state.scoringMatrix j i = o1.state.scoringMatrix i j := by
  obtain ⟨o1, ho1, hM1, _, _, _⟩ := main_run programWeights a b
  obtain ⟨o2, ho2, hM2, _, _, _⟩ := main_run programWeights b a
  refine ⟨o1, o2, ho1, ho2, ?_, ?_⟩
  · rw [finalScore, finalScore, hM1, hM2]
    exact (filled_transpose a b _ (rowsOf b - 1) (colsOf a - 1) (le_refl _)
      (by simp [rowsOf]) (by simp [colsOf])).symm
  · intro i j hi hj
    rw [hM1, hM2]
    exact filled_transpose a b _ i j (le_refl _) hi hj

/-- C19, counterexample. With the program's weights, equal symbols and the neighbouring
cells `up = 0`, `left = 0`, `diagonal = 2147483647`, the 32-bit `findMax` returns code 2 and
stores `2147483646`: `diagonal + match` wraps to `-2147483648`, fails the first test, and
`diagonal + misMatch` is taken. The stored value is neither the maximum `2147483648` of the
three exact terms nor the maximum `-2` of the three terms as 32-bit sums. -/
theorem findMax32_overflow :
    programWeights.misMatch ≤ programWeights.match_ ∧
    InInt32 2147483647 ∧
    findMax32 programWeights ['A'] ['A']
        (fun a b => if a = 0 ∧ b = 0 then 2147483647 else 0) 1 1 = (2, 2147483646) ∧
    (2147483646 : Int) ≠ max ((0 : Int) + programWeights.gap)
      (max ((0 : Int) + programWeights.gap) ((2147483647 : Int) + programWeights.match_)) ∧
    (2147483646 : Int) ≠ max (wrap32 ((0 : Int) + programWeights.gap))
      (max (wrap32 ((0 : Int) + programWeights.gap))
        (wrap32 ((2147483647 : Int) + programWeights.match_))) := by
  refine ⟨by decide, ⟨by decide, by decide⟩, by decide, by decide, by decide⟩

/-- C19, as the code has it. `findMax` in 32-bit arithmetic under arbitrary weights: whenever
`misMatch ≤ match` and none of the sums `up + gap`, `left + gap`, `diagonal + match`,
`diagonal + misMatch` overflows a 32-bit `int`, the value stored through `max` is the maximum
of `up + gap`, `left + gap` and `diagonal + (match if seq1[y-1] == seq2[x-1] else misMatch)`,
and the returned code is 2 exactly when the diagonal term attains that maximum. -/
theorem findMax32_arbitrary_weights (w : Weights) (hw : w.misMatch ≤ w.match_)
    (seq1 seq2 : List Char) (m : Nat → Nat → Int) (x y : Nat)
    (hup : InInt32 (m x (y - 1) + w.gap)) (hleft : InInt32 (m (x - 1) y + w.gap))
    (hmatch : InInt32 (m (x - 1) (y - 1) + w.match_))
    (hmis : InInt32 (m (x - 1) (y - 1) + w.misMatch)) :
    (findMax32 w seq1 seq2 m x y).2
      = max (m x (y - 1) + w.gap) (max (m (x - 1) y + w.gap)
          (m (x - 1) (y - 1) +
            (if charAt seq1 (y - 1) = charAt seq2 (x - 1) then w.match_ else w.misMatch))) ∧
    ((findMax32 w seq1 seq2 m x y).1 = 2 ↔
      m (x - 1) (y - 1) +
          (if charAt seq1 (y - 1) = charAt seq2 (x - 1) then w.match_ else w.misMatch)
        = max (m x (y - 1) + w.gap) (max (m (x - 1) y + w.gap)
            (m (x - 1) (y - 1) +
              (if charAt seq1 (y - 1) = charAt seq2 (x - 1) then w.match_
               else w.misMatch)))) := by
  rw [findMax32_eq_findMax w seq1 seq2 m x y hup hleft hmatch hmis]
  refine ⟨findMax_max w hw seq1 seq2 m x y, ?_⟩
  show (findMax w seq1 seq2 m x y).1 = 2 ↔
    diagCandidate w seq1 seq2 m x y
      = max (upCandidate w m x y) (max (leftCandidate w m x y)
          (diagCandidate w seq1 seq2 m x y))
  rw [findMax_dir w hw]
  generalize upCandidate w m x y = u
  generalize leftCandidate w m x y = l
  generalize diagCandidate w seq1 seq2 m x y = d
  split_ifs <;> constructor <;> intro h <;> omega

/-- The statement of C19 for `gap = -3`, `match = 5`, `misMatch = 2`, on a zero matrix at
cell `(1, 1)` of `seq1 = "A"`, `seq2 = "A"`. -/
theorem findMax32_arbitrary_weights_witness :
    (findMax32 ⟨-3, 5, 2⟩ ['A'] ['A'] (fun _ _ => 0) 1 1).2
      = max ((fun _ _ => (0 : Int)) 1 (1 - 1) + (⟨-3, 5, 2⟩ : Weights).gap)
          (max ((fun _ _ => (0 : Int)) (1 - 1) 1 + (⟨-3, 5, 2⟩ : Weights).gap)
          ((fun _ _ => (0 : Int)) (1 - 1) (1 - 1) +
            (if charAt ['A'] (1 - 1) = charAt ['A'] (1 - 1) then (⟨-3, 5, 2⟩ : Weights).match_
             else (⟨-3, 5, 2⟩ : Weights).misMatch))) ∧
    ((findMax32 ⟨-3, 5, 2⟩ ['A'] ['A'] (fun _ _ => 0) 1 1).1 = 2 ↔
      (fun _ _ => (0 : Int)) (1 - 1) (1 - 1) +
          (if charAt ['A'] (1 - 1) = charAt ['A'] (1 - 1) then (⟨-3, 5, 2⟩ : Weights).match_
           else (⟨-3, 5, 2⟩ : Weights).misMatch)
        = max ((fun _ _ => (0 : Int)) 1 (1 - 1) + (⟨-3, 5, 2⟩ : Weights).gap)
            (max ((fun _ _ => (0 : Int)) (1 - 1) 1 + (⟨-3, 5, 2⟩ : Weights).gap)
            ((fun _ _ => (0 : Int)) (1 - 1) (1 - 1) +
              (if charAt ['A'] (1 - 1) = charAt ['A'] (1 - 1)
               then (⟨-3, 5, 2⟩ : Weights).match_
               else (⟨-3, 5, 2⟩ : Weights).misMatch)))) :=
  findMax32_arbitrary_weights ⟨-3, 5, 2⟩ (by decide) ['A'] ['A'] (fun _ _ => 0) 1 1
    ⟨by decide, by decide⟩ ⟨by decide, by decide⟩ ⟨by decide, by decide⟩
    ⟨by decide, by decide⟩

end GlobalAlignment
